import Mathlib

/-!
Shallow embedding of `duhist.py` and `find_old_files.py` from the
`du_histogram` repository, together with theorems settling the frozen
claims about its specification.

Modelling conventions:
* Python strings are modelled as `List Char`.
* Python `float` timestamps, sizes and ratios are modelled as exact
  rationals `ℚ`.
* Python `int(x)` truncation toward zero is `pyTrunc`.
* A Python function that can raise an exception on some inputs returns an
  `Option`, with `none` standing for the raised exception.
* Python dictionaries are modelled as insertion-ordered association lists.
-/

namespace DuHistogram

/-- Python `int(x)` applied to a float: truncation toward zero. -/
def pyTrunc (x : ℚ) : ℤ := if 0 ≤ x then ⌊x⌋ else ⌈x⌉

/-- Python list subscription `l[i]`: nonnegative indices count from the
front, negative indices from the back, and an index out of range raises
`IndexError` (modelled by `none`). -/
def pyGet {α : Type} (l : List α) (i : ℤ) : Option α :=
  if 0 ≤ i then l.get? i.toNat
  else if (-i).toNat ≤ l.length then l.get? (l.length - (-i).toNat) else none

/-- Python slice `s[:i]`: negative stops count from the end, out-of-range
stops clamp. -/
def pySliceTo {α : Type} (s : List α) (i : ℤ) : List α :=
  if 0 ≤ i then s.take i.toNat else s.take (s.length - min s.length (-i).toNat)

/-- Python slice `s[i:]`: negative starts count from the end, out-of-range
starts clamp. -/
def pySliceFrom {α : Type} (s : List α) (i : ℤ) : List α :=
  if 0 ≤ i then s.drop i.toNat else s.drop (s.length - min s.length (-i).toNat)

/-- Python dictionary lookup `d.get k` over an association list. -/
def getAssoc {α β : Type} [DecidableEq α] : List (α × β) → α → Option β
  | [], _ => none
  | (k2, v) :: rest, k => if k2 = k then some v else getAssoc rest k

/-- Python dictionary assignment `d[k] = v` over an association list:
overwrite in place, or append a new key at the end (insertion order). -/
def setAssoc {α β : Type} [DecidableEq α] : List (α × β) → α → β → List (α × β)
  | [], k, v => [(k, v)]
  | (k2, v2) :: rest, k, v =>
    if k2 = k then (k2, v) :: rest else (k2, v2) :: setAssoc rest k v

/-! ## duhist.py -/

/-- The `while` padding loop of `duhist.get13charName`: append spaces until
the length reaches `name_width`. -/
def padLoop (name_width : ℕ) (name : List Char) : List Char :=
  if name.length < name_width then padLoop name_width (name ++ [' ']) else name
termination_by name_width - name.length
decreasing_by simp only [List.length_append, List.length_cons, List.length_nil]; omega

/-- `duhist.get13charName`: when `name` is longer than `name_width`, drop
the middle and insert `***` using the ceil-slicing of the source; otherwise
pad with trailing spaces up to `name_width`. -/
def get13charName (name : List Char) (name_width : ℕ := 13) : List Char :=
  if name_width < name.length then
    pySliceTo name ⌈((name_width : ℚ) - 3) / 2⌉ ++ ['*', '*', '*'] ++
      pySliceFrom name ⌈(3 - (name_width : ℚ)) / 2⌉
  else padLoop name_width name

/-- The name-column width check of `duhist.main` (lines 191-192), performed
before any truncation: a width below 5 raises an `Exception`. -/
def mainNameWidthCheck (name_width : ℤ) : Except String Unit :=
  if name_width < 5 then
    Except.error "The name column must be at least 5 characters wide!"
  else Except.ok ()

/-- `duhist.logChars`, the 4-symbol intensity ramp. -/
def logChars : List Char := ['-', '~', '=', '#']

/-- The `while` loop of `duhist.getBar`: append a character until the length
reaches `width`.  With `log = true` the loop body evaluates the module
global `maxVal`, which is never defined at module scope of `duhist.py` (it
is only a local variable of `main`), so the body raises `NameError`
(modelled by `none`). -/
def barLoop (width : ℚ) (s : List Char) : List Char :=
  if (s.length : ℚ) < width then barLoop width (s ++ ['=']) else s
termination_by ⌈width⌉.toNat - s.length
decreasing_by
  simp only [List.length_append, List.length_cons, List.length_nil]
  have h2 : (s.length : ℤ) < ⌈width⌉ := by
    have hlt : ((s.length : ℕ) : ℚ) < (⌈width⌉ : ℚ) :=
      lt_of_lt_of_le (by assumption) (Int.le_ceil width)
    exact_mod_cast hlt
  omega

/-- `duhist.getBar`: the equal-signs bar.  `none` models a raised exception:
`ZeroDivisionError` when `scale = 0`, or the `NameError` on the undefined
global `maxVal` as soon as the loop body runs with `log = true` (which
happens exactly when `1 < value / scale`). -/
def getBar (value scale : ℚ) (log : Bool) : Option (List Char) :=
  if scale = 0 then none
  else if value / scale < 1 then some []
  else if log then (if value / scale ≤ 1 then some ['='] else none)
  else some (barLoop (value / scale) ['='])

/-- The `while` loop of `duhist.getLogBar`: before each append with
`log = true` the next character is looked up as
`logChars[int(ceil(len(logChars) * len(s) / float(maxWidth)) - 1)]`;
an out-of-range ramp index raises `IndexError` and `maxWidth = 0` raises
`ZeroDivisionError` (both modelled by `none`). -/
def logBarLoop (width : ℚ) (maxWidth : ℕ) (log : Bool) (ch : Char) (s : List Char) :
    Option (List Char) :=
  if (s.length : ℚ) < width then
    if log then
      if maxWidth = 0 then none
      else
        match pyGet logChars (⌈((logChars.length : ℚ) * (s.length : ℚ)) / (maxWidth : ℚ)⌉ - 1) with
        | none => none
        | some c => logBarLoop width maxWidth log c (s ++ [c])
    else logBarLoop width maxWidth log ch (s ++ [ch])
  else some s
termination_by ⌈width⌉.toNat - s.length
decreasing_by
  all_goals
    simp only [List.length_append, List.length_cons, List.length_nil]
    have h2 : (s.length : ℤ) < ⌈width⌉ := by
      have hlt : ((s.length : ℕ) : ℚ) < (⌈width⌉ : ℚ) :=
        lt_of_lt_of_le (by assumption) (Int.le_ceil width)
      exact_mod_cast hlt
    omega

/-- `duhist.getLogBar`: the ramp bar.  `none` models a raised exception, see
`logBarLoop`; `ZeroDivisionError` when `scale = 0`. -/
def getLogBar (value scale : ℚ) (maxWidth : ℕ) (log : Bool) : Option (List Char) :=
  if scale = 0 then none
  else if value / scale < 1 then some []
  else logBarLoop (value / scale) maxWidth log '-' ['-']

/-- `duhist.steps`, the size suffixes. -/
def steps : List Char := ['K', 'M', 'G', 'T', 'P']

/-- Rounding to the nearest integer with ties to even, as used by Python
float formatting. -/
def roundHalfEven (x : ℚ) : ℤ :=
  if x - ⌊x⌋ = 1 / 2 then (if 2 ∣ ⌊x⌋ then ⌊x⌋ else ⌊x⌋ + 1) else ⌊x + 1 / 2⌋

/-- Python format `'%2.f' % x`: round to an integer and pad with spaces on
the left to a field width of at least 2. -/
def fmt2f (x : ℚ) : List Char :=
  let s := (toString (roundHalfEven x)).data
  if s.length < 2 then ' ' :: s else s

/-- Python format `'%.1f' % x` for a nonnegative `x`: round `10 * x` to an
integer and write its tens digits, a decimal point, and the final digit. -/
def fmt1f (x : ℚ) : List Char :=
  let n := roundHalfEven (10 * x)
  (toString (n / 10)).data ++ '.' :: (toString (n % 10)).data

/-- The order-of-magnitude loop of `duhist.getSizeString`: divide by 1024
while the value exceeds 99, counting the steps taken. -/
def sizeLoop (size : ℚ) (step : ℕ) : ℚ × ℕ :=
  if 99 < size then sizeLoop (size / 1024) (step + 1) else (size, step)
termination_by ⌈size⌉.toNat
decreasing_by
  have h99 : (99 : ℚ) < size := by assumption
  have h1 : size / 1024 ≤ size - 1 := by linarith
  have h2 : ⌈size / 1024⌉ ≤ ⌈size - 1⌉ := Int.ceil_le_ceil h1
  have h3 : ⌈size - 1⌉ = ⌈size⌉ - 1 := by
    have h := Int.ceil_sub_int size 1
    simp only [Int.cast_one] at h
    exact h
  have h4 : (99 : ℤ) < ⌈size⌉ := by
    rw [Int.lt_ceil]; exact_mod_cast h99
  omega

/-- `duhist.getSizeString`: format a kilobyte count as two numeric
characters plus a suffix from `steps`.  `none` models the `IndexError` when
the step count runs past the end of `steps`. -/
def getSizeString (val : ℚ) : Option (List Char) :=
  let p := sizeLoop val 0
  let num := if 19 / 20 ≤ p.1 then fmt2f p.1
    else (fmt1f p.1).drop ((fmt1f p.1).length - 2)
  match steps.get? p.2 with
  | some suffix => some (num ++ [suffix])
  | none => none

/-- `duhist.units`: seconds per age unit.  `get3charAge` iterates over the
keys sorted by value in decreasing order; with these four distinct values
the sorted order is `y, m, d, h`, written out explicitly here. -/
def units : List (Char × ℕ) :=
  [('y', 24 * 3600 * 365), ('m', 24 * 3600 * 30), ('d', 24 * 3600), ('h', 3600)]

/-- Python format of an integer with `02d`: decimal digits, left-padded
with zeros to a field width of at least 2. -/
def fmt02 (n : ℤ) : List Char :=
  let s := (toString n).data
  if s.length < 2 then '0' :: s else s

/-- The unit loop of `duhist.get3charAge` over the sorted unit list: return
the `02d`-formatted truncated count and the unit character for the first
(largest) unit whose count is at least 1.5, and `"00h"` when none
qualifies. -/
def get3charAgeAux (age_s : ℚ) : List (Char × ℕ) → List Char
  | [] => ['0', '0', 'h']
  | (unit, unit_size) :: rest =>
    if 3 / 2 ≤ age_s / (unit_size : ℚ) then
      fmt02 (pyTrunc (age_s / (unit_size : ℚ))) ++ [unit]
    else get3charAgeAux age_s rest

/-- `duhist.get3charAge`. -/
def get3charAge (age_s : ℚ) : List Char := get3charAgeAux age_s units

/-! ## Helper lemmas -/

lemma toString_int_length (n : ℤ) (h0 : 0 ≤ n) (h99 : n ≤ 99) :
    (toString n).data.length = 1 ∨ (toString n).data.length = 2 := by
  interval_cases n <;> decide

lemma fmt02_length (n : ℤ) (h0 : 0 ≤ n) (h99 : n ≤ 99) : (fmt02 n).length = 2 := by
  unfold fmt02
  rcases toString_int_length n h0 h99 with h | h <;> simp [h]

lemma pyTrunc_of_nonneg (x : ℚ) (h0 : 0 ≤ x) : pyTrunc x = ⌊x⌋ := by
  simp [pyTrunc, h0]

lemma floor_between (x : ℚ) (h1 : 1 ≤ x) (h99 : x < 100) : 1 ≤ ⌊x⌋ ∧ ⌊x⌋ ≤ 99 := by
  constructor
  · exact Int.le_floor.mpr (by exact_mod_cast h1)
  · have := Int.floor_lt.mpr (show x < ((100 : ℤ) : ℚ) by exact_mod_cast h99)
    omega

lemma padLoop_eq (w : ℕ) (s : List Char) :
    padLoop w s = s ++ List.replicate (w - s.length) ' ' := by
  induction s using padLoop.induct w with
  | case1 s h ih =>
    rw [padLoop, if_pos h, ih]
    have hlen : w - s.length = (w - (s ++ [' ']).length) + 1 := by
      simp only [List.length_append, List.length_cons, List.length_nil]
      omega
    rw [hlen, List.replicate_succ, List.append_assoc, List.singleton_append]
  | case2 s h =>
    rw [padLoop, if_neg h]
    have hlen : w - s.length = 0 := by omega
    simp [hlen]

lemma floor_int_div_two (m : ℤ) : ⌊(m : ℚ) / 2⌋ = m / 2 := by
  have h := Rat.floor_intCast_div_natCast m 2
  norm_num at h
  exact h

/-! ## C7: get3charAge -/

lemma get3charAge_5400 : get3charAge 5400 = ['0', '1', 'h'] := by
  have hf : ⌊(3 : ℚ) / 2⌋ = 1 := by
    rw [Int.floor_eq_iff]
    norm_num
  norm_num [get3charAge, units, get3charAgeAux, pyTrunc, hf]
  decide

lemma get3charAge_120960 : get3charAge (86400 * (14 / 10)) = ['3', '3', 'h'] := by
  have hf : ⌊(168 : ℚ) / 5⌋ = 33 := by
    rw [Int.floor_eq_iff]
    norm_num
  norm_num [get3charAge, units, get3charAgeAux, pyTrunc, hf]
  decide

/-- C7 (amended): for a nonnegative age below 100 years, `get3charAge`
returns exactly 3 characters, namely the zero-padded truncated count for the
largest unit among y, m, d, h whose count reaches 1.5, and `00h` when no
unit qualifies; `get3charAge 5400 = "01h"` and `get3charAge (86400 * 1.4)`
reports in hours. -/
theorem C7_get3charAge (age : ℚ) (h0 : 0 ≤ age) (hcap : age < 100 * 31536000) :
    (get3charAge age).length = 3 ∧
    (3 / 2 ≤ age / 31536000 → get3charAge age = fmt02 ⌊age / 31536000⌋ ++ ['y']) ∧
    (age / 31536000 < 3 / 2 → 3 / 2 ≤ age / 2592000 →
      get3charAge age = fmt02 ⌊age / 2592000⌋ ++ ['m']) ∧
    (age / 2592000 < 3 / 2 → 3 / 2 ≤ age / 86400 →
      get3charAge age = fmt02 ⌊age / 86400⌋ ++ ['d']) ∧
    (age / 86400 < 3 / 2 → 3 / 2 ≤ age / 3600 →
      get3charAge age = fmt02 ⌊age / 3600⌋ ++ ['h']) ∧
    (age / 3600 < 3 / 2 → get3charAge age = ['0', '0', 'h']) ∧
    get3charAge 5400 = ['0', '1', 'h'] ∧
    get3charAge (86400 * (14 / 10)) = ['3', '3', 'h'] := by
  have ey : ((24 * 3600 * 365 : ℕ) : ℚ) = 31536000 := by norm_num
  have em : ((24 * 3600 * 30 : ℕ) : ℚ) = 2592000 := by norm_num
  have ed : ((24 * 3600 : ℕ) : ℚ) = 86400 := by norm_num
  have eh : ((3600 : ℕ) : ℚ) = 3600 := by norm_num
  have hy_eq : 3 / 2 ≤ age / 31536000 →
      get3charAge age = fmt02 ⌊age / 31536000⌋ ++ ['y'] := by
    intro h
    simp only [get3charAge, units, get3charAgeAux, ey]
    rw [if_pos h, pyTrunc_of_nonneg _ (div_nonneg h0 (by norm_num))]
  have hm_eq : age / 31536000 < 3 / 2 → 3 / 2 ≤ age / 2592000 →
      get3charAge age = fmt02 ⌊age / 2592000⌋ ++ ['m'] := by
    intro h1 h2
    simp only [get3charAge, units, get3charAgeAux, ey, em]
    rw [if_neg (not_le.mpr h1), if_pos h2,
      pyTrunc_of_nonneg _ (div_nonneg h0 (by norm_num))]
  have hd_eq : age / 2592000 < 3 / 2 → 3 / 2 ≤ age / 86400 →
      get3charAge age = fmt02 ⌊age / 86400⌋ ++ ['d'] := by
    intro h1 h2
    have h1' : age / 31536000 < 3 / 2 :=
      lt_of_le_of_lt (by apply div_le_div_of_nonneg_left h0 <;> norm_num) h1
    simp only [get3charAge, units, get3charAgeAux, ey, em, ed]
    rw [if_neg (not_le.mpr h1'), if_neg (not_le.mpr h1), if_pos h2,
      pyTrunc_of_nonneg _ (div_nonneg h0 (by norm_num))]
  have hh_eq : age / 86400 < 3 / 2 → 3 / 2 ≤ age / 3600 →
      get3charAge age = fmt02 ⌊age / 3600⌋ ++ ['h'] := by
    intro h1 h2
    have h1' : age / 2592000 < 3 / 2 :=
      lt_of_le_of_lt (by apply div_le_div_of_nonneg_left h0 <;> norm_num) h1
    have h1'' : age / 31536000 < 3 / 2 :=
      lt_of_le_of_lt (by apply div_le_div_of_nonneg_left h0 <;> norm_num) h1'
    simp only [get3charAge, units, get3charAgeAux, ey, em, ed, eh]
    rw [if_neg (not_le.mpr h1''), if_neg (not_le.mpr h1'), if_neg (not_le.mpr h1),
      if_pos h2, pyTrunc_of_nonneg _ (div_nonneg h0 (by norm_num))]
  have h0_eq : age / 3600 < 3 / 2 → get3charAge age = ['0', '0', 'h'] := by
    intro h1
    have h1' : age / 86400 < 3 / 2 :=
      lt_of_le_of_lt (by apply div_le_div_of_nonneg_left h0 <;> norm_num) h1
    have h1'' : age / 2592000 < 3 / 2 :=
      lt_of_le_of_lt (by apply div_le_div_of_nonneg_left h0 <;> norm_num) h1'
    have h1''' : age / 31536000 < 3 / 2 :=
      lt_of_le_of_lt (by apply div_le_div_of_nonneg_left h0 <;> norm_num) h1''
    simp only [get3charAge, units, get3charAgeAux, ey, em, ed, eh]
    rw [if_neg (not_le.mpr h1'''), if_neg (not_le.mpr h1''), if_neg (not_le.mpr h1'),
      if_neg (not_le.mpr h1)]
  have hlen : (get3charAge age).length = 3 := by
    by_cases hy : 3 / 2 ≤ age / 31536000
    · have hb := floor_between (age / 31536000) (le_trans (by norm_num) hy)
        ((div_lt_iff₀ (by norm_num)).mpr (by linarith))
      rw [hy_eq hy]
      simp [fmt02_length _ (by omega) hb.2]
    · push_neg at hy
      by_cases hm : 3 / 2 ≤ age / 2592000
      · have hage : age < 47304000 := by
          have := (div_lt_iff₀ (show (0 : ℚ) < 31536000 by norm_num)).mp hy
          linarith
        have hb := floor_between (age / 2592000) (le_trans (by norm_num) hm)
          ((div_lt_iff₀ (by norm_num)).mpr (by linarith))
        rw [hm_eq hy hm]
        simp [fmt02_length _ (by omega) hb.2]
      · push_neg at hm
        by_cases hd : 3 / 2 ≤ age / 86400
        · have hage : age < 3888000 := by
            have := (div_lt_iff₀ (show (0 : ℚ) < 2592000 by norm_num)).mp hm
            linarith
          have hb := floor_between (age / 86400) (le_trans (by norm_num) hd)
            ((div_lt_iff₀ (by norm_num)).mpr (by linarith))
          rw [hd_eq hm hd]
          simp [fmt02_length _ (by omega) hb.2]
        · push_neg at hd
          by_cases hh : 3 / 2 ≤ age / 3600
          · have hage : age < 129600 := by
              have := (div_lt_iff₀ (show (0 : ℚ) < 86400 by norm_num)).mp hd
              linarith
            have hb := floor_between (age / 3600) (le_trans (by norm_num) hh)
              ((div_lt_iff₀ (by norm_num)).mpr (by linarith))
            rw [hh_eq hd hh]
            simp [fmt02_length _ (by omega) hb.2]
          · push_neg at hh
            rw [h0_eq hh]
            rfl
  exact ⟨hlen, hy_eq, hm_eq, hd_eq, hh_eq, h0_eq, get3charAge_5400, get3charAge_120960⟩

/-- C7 witness: the theorem applied at `age = 5400`. -/
theorem C7_get3charAge_witness :
    (get3charAge 5400).length = 3 ∧ get3charAge 5400 = ['0', '1', 'h'] :=
  ⟨(C7_get3charAge 5400 (by norm_num) (by norm_num)).1,
   (C7_get3charAge 5400 (by norm_num) (by norm_num)).2.2.2.2.2.2.1⟩

/-- C7 counterexample: at 100 years of age the count has three digits, so
the result has 4 characters, not the claimed exactly 3. -/
theorem C7_get3charAge_cex :
    get3charAge 3153600000 = ['1', '0', '0', 'y'] ∧
    (get3charAge 3153600000).length ≠ 3 := by
  have hf : ⌊(100 : ℚ)⌋ = 100 := by
    rw [Int.floor_eq_iff]
    norm_num
  have h : get3charAge 3153600000 = ['1', '0', '0', 'y'] := by
    norm_num [get3charAge, units, get3charAgeAux, pyTrunc, hf]
    decide
  exact ⟨h, by rw [h]; decide⟩

/-! ## C8 and C9: get13charName and the width check -/

/-- C8: for any width of at least 5, `get13charName` returns exactly
`width` characters: a longer label keeps `ceil((width-3)/2)` leading
characters, the marker `***`, and enough trailing characters to reach the
width; a shorter label is right-padded with spaces; an equal-length label is
returned unchanged. -/
theorem C8_get13charName (name : List Char) (w : ℕ) (hw : 5 ≤ w) :
    (get13charName name w).length = w ∧
    (w < name.length →
      get13charName name w =
        name.take (⌈((w : ℚ) - 3) / 2⌉).toNat ++ ['*', '*', '*'] ++
          name.drop (name.length - (w - 3 - (⌈((w : ℚ) - 3) / 2⌉).toNat))) ∧
    (name.length < w → get13charName name w = name ++ List.replicate (w - name.length) ' ') ∧
    (name.length = w → get13charName name w = name) := by
  have hw3 : ((w : ℚ) - 3) = (((w : ℤ) - 3 : ℤ) : ℚ) := by push_cast; ring
  have hw3' : (3 - (w : ℚ)) = ((3 - (w : ℤ) : ℤ) : ℚ) := by push_cast; ring
  have hfl : ⌊((w : ℚ) - 3) / 2⌋ = ((w : ℤ) - 3) / 2 := by
    rw [hw3, floor_int_div_two]
  have hce : ⌈((w : ℚ) - 3) / 2⌉ = -((3 - (w : ℤ)) / 2) := by
    rw [show ((w : ℚ) - 3) / 2 = -((3 - (w : ℚ)) / 2) by ring, Int.ceil_neg, hw3',
      floor_int_div_two]
  have hce2 : ⌈(3 - (w : ℚ)) / 2⌉ = -(((w : ℤ) - 3) / 2) := by
    rw [show (3 - (w : ℚ)) / 2 = -(((w : ℚ) - 3) / 2) by ring, Int.ceil_neg, hfl]
  set c : ℤ := ⌈((w : ℚ) - 3) / 2⌉ with hc
  have hcf : c + ((w : ℤ) - 3) / 2 = (w : ℤ) - 3 := by
    rw [hce]; omega
  have hc1 : 1 ≤ c := by rw [hce]; omega
  have hcw : c ≤ (w : ℤ) - 3 := by rw [hce]; omega
  have hf1 : 1 ≤ ((w : ℤ) - 3) / 2 := by omega
  rcases lt_trichotomy w name.length with hlt | heq | hgt
  · -- truncation case
    have hbranch : get13charName name w =
        pySliceTo name c ++ ['*', '*', '*'] ++ pySliceFrom name ⌈(3 - (w : ℚ)) / 2⌉ := by
      rw [get13charName, if_pos hlt]
    have hsliceTo : pySliceTo name c = name.take c.toNat := by
      rw [pySliceTo, if_pos (by omega)]
    have hf_toNat : ((((w : ℤ) - 3) / 2)).toNat = w - 3 - c.toNat := by omega
    have hmin : min name.length ((((w : ℤ) - 3) / 2)).toNat = w - 3 - c.toNat := by
      rw [hf_toNat]; omega
    have hsliceFrom : pySliceFrom name ⌈(3 - (w : ℚ)) / 2⌉ =
        name.drop (name.length - (w - 3 - c.toNat)) := by
      rw [hce2, pySliceFrom, if_neg (by omega)]
      congr 1
      rw [neg_neg, hmin]
    have heq2 : get13charName name w =
        name.take c.toNat ++ ['*', '*', '*'] ++
          name.drop (name.length - (w - 3 - c.toNat)) := by
      rw [hbranch, hsliceTo, hsliceFrom]
    refine ⟨?_, fun _ => heq2, fun h => absurd h (by omega), fun h => absurd h (by omega)⟩
    rw [heq2]
    simp only [List.length_append, List.length_take, List.length_drop,
      List.length_cons, List.length_nil]
    omega
  · -- equal case
    have hbranch : get13charName name w = padLoop w name := by
      rw [get13charName, if_neg (by omega)]
    refine ⟨?_, fun h => absurd h (by omega), fun h => absurd h (by omega), fun _ => ?_⟩
    · rw [hbranch, padLoop_eq]
      simp only [List.length_append, List.length_replicate]
      omega
    · rw [hbranch, padLoop_eq]
      simp [← heq]
  · -- padding case
    have hbranch : get13charName name w = padLoop w name := by
      rw [get13charName, if_neg (by omega)]
    refine ⟨?_, fun h => absurd h (by omega), fun _ => ?_, fun h => absurd h (by omega)⟩
    · rw [hbranch, padLoop_eq]
      simp only [List.length_append, List.length_replicate]
      omega
    · rw [hbranch, padLoop_eq]

/-- C8 witness: the theorem applied to a 16-character name at width 13. -/
theorem C8_get13charName_witness :
    (get13charName
      ['a', 'b', 'c', 'd', 'e', 'f', 'g', 'h', 'i', 'j', 'k', 'l', 'm', 'n', 'o', 'p']
      13).length = 13 :=
  (C8_get13charName
    ['a', 'b', 'c', 'd', 'e', 'f', 'g', 'h', 'i', 'j', 'k', 'l', 'm', 'n', 'o', 'p']
    13 (by norm_num)).1

/-- C9 counterexample: `get13charName` itself performs no width validation;
at width 4 it returns a (malformed, 10-character) string instead of
failing. -/
theorem C9_width_check_cex :
    get13charName ['a', 'b', 'c', 'd', 'e', 'f'] 4 =
      ['a', '*', '*', '*', 'a', 'b', 'c', 'd', 'e', 'f'] := by
  have hc1 : ⌈(1 : ℚ) / 2⌉ = 1 := by
    rw [Int.ceil_eq_iff]
    norm_num
  have hc2 : ⌈-((1 : ℚ) / 2)⌉ = 0 := by
    rw [Int.ceil_eq_iff]
    norm_num
  norm_num [get13charName, pySliceTo, pySliceFrom, hc1, hc2]

/-- C9 (amended): the width validation lives in `duhist.main`, which raises
an `Exception` before any truncation whenever the name-column width is below
5; the truncator itself does not validate. -/
theorem C9_width_check (name_width : ℤ) (h : name_width < 5) :
    mainNameWidthCheck name_width =
      Except.error "The name column must be at least 5 characters wide!" := by
  rw [mainNameWidthCheck, if_pos h]

/-- C9 witness: the theorem applied at width 4. -/
theorem C9_width_check_witness :
    mainNameWidthCheck 4 =
      Except.error "The name column must be at least 5 characters wide!" :=
  C9_width_check 4 (by norm_num)

/-! ## C2: getBar -/

lemma ceil_pos_of_lt {x : ℚ} {n : ℕ} (h : (n : ℚ) < x) : n < ⌈x⌉.toNat := by
  have h2 : (n : ℤ) < ⌈x⌉ := by
    have hlt : ((n : ℕ) : ℚ) < (⌈x⌉ : ℚ) := lt_of_lt_of_le h (Int.le_ceil x)
    exact_mod_cast hlt
  omega

lemma ceil_toNat_le_of_le {x : ℚ} {n : ℕ} (h : x ≤ (n : ℚ)) : ⌈x⌉.toNat ≤ n := by
  have h2 : ⌈x⌉ ≤ (n : ℤ) := Int.ceil_le.mpr (by exact_mod_cast h)
  omega

lemma barLoop_eq (width : ℚ) (s : List Char) :
    barLoop width s = s ++ List.replicate (⌈width⌉.toNat - s.length) '=' := by
  induction s using barLoop.induct width with
  | case1 s h ih =>
    rw [barLoop, if_pos h, ih]
    have hlt : s.length < ⌈width⌉.toNat := ceil_pos_of_lt h
    have hlen : ⌈width⌉.toNat - s.length = (⌈width⌉.toNat - (s ++ ['=']).length) + 1 := by
      simp only [List.length_append, List.length_cons, List.length_nil]
      omega
    rw [hlen, List.replicate_succ, List.append_assoc, List.singleton_append]
  | case2 s h =>
    rw [barLoop, if_neg h]
    have hle : ⌈width⌉.toNat ≤ s.length := ceil_toNat_le_of_le (not_lt.mp h)
    have hlen : ⌈width⌉.toNat - s.length = 0 := by omega
    simp [hlen]

/-- C2 (amended): with a positive scale, `getBar` in linear mode returns a
string of equal signs of length `ceil (value / scale)` (not floor), empty
exactly when `value / scale < 1`; in log mode the result is `"="` when the
ratio is exactly 1 and otherwise, once the loop body runs (`1 < ratio`),
the undefined module global `maxVal` raises `NameError`. -/
theorem C2_getBar (value scale : ℚ) (hs : 0 < scale) :
    (getBar value scale false =
      some (List.replicate (if value / scale < 1 then 0 else ⌈value / scale⌉.toNat) '=')) ∧
    (getBar value scale false = some [] ↔ value / scale < 1) ∧
    (value / scale = 1 → getBar value scale true = some ['=']) ∧
    (1 < value / scale → getBar value scale true = none) := by
  have hsne : scale ≠ 0 := ne_of_gt hs
  by_cases hr : value / scale < 1
  · refine ⟨by simp [getBar, hsne, hr], by simp [getBar, hsne, hr],
      fun he => absurd he (by intro he2; rw [he2] at hr; exact absurd hr (by norm_num)),
      fun hlt => absurd hlt (by linarith)⟩
  · have hn1 : 1 ≤ ⌈value / scale⌉.toNat := by
      have := ceil_pos_of_lt (x := value / scale) (n := 0) (by push_cast; linarith [not_lt.mp hr])
      omega
    have hmain : getBar value scale false =
        some (List.replicate ⌈value / scale⌉.toNat '=') := by
      rw [getBar, if_neg hsne, if_neg hr]
      simp only [Bool.false_eq_true, if_false]
      rw [barLoop_eq]
      have hsplit : ⌈value / scale⌉.toNat = (⌈value / scale⌉.toNat - 1) + 1 := by omega
      rw [hsplit, List.replicate_succ]
      simp
    refine ⟨by rw [if_neg hr]; exact hmain, ?_, fun he => ?_, fun hlt => ?_⟩
    · rw [hmain]
      constructor
      · intro h
        have : List.replicate ⌈value / scale⌉.toNat '=' = ([] : List Char) :=
          Option.some_injective _ h
        have hlen := congrArg List.length this
        simp only [List.length_replicate, List.length_nil] at hlen
        omega
      · intro h
        exact absurd h hr
    · rw [getBar, if_neg hsne, if_neg hr]
      simp [he]
    · rw [getBar, if_neg hsne, if_neg hr]
      simp [not_le.mpr hlt]

/-- C2 witness: the theorem applied at `value = 10`, `scale = 1`, giving the
claimed example `getBar 10 1 false = "=========="`. -/
theorem C2_getBar_witness : getBar 10 1 false = some (List.replicate 10 '=') := by
  have h := (C2_getBar 10 1 (by norm_num)).1
  rw [show (10 : ℚ) / 1 = 10 by norm_num] at h
  rw [if_neg (by norm_num), show ⌈(10 : ℚ)⌉ = 10 by rw [Int.ceil_eq_iff] <;> norm_num] at h
  exact h

/-- C2 counterexample: `getBar 10 3 false` has `ceil (10/3) = 4` characters,
while the claim predicts length `floor (10/3) = 3`. -/
theorem C2_getBar_cex :
    getBar 10 3 false = some ['=', '=', '=', '='] ∧ ⌊(10 : ℚ) / 3⌋.toNat = 3 := by
  constructor
  · rw [getBar, if_neg (by norm_num), if_neg (by norm_num)]
    simp only [Bool.false_eq_true, if_false]
    rw [barLoop_eq, show ⌈(10 : ℚ) / 3⌉ = 4 by rw [Int.ceil_eq_iff] <;> norm_num]
    decide
  · rw [show ⌊(10 : ℚ) / 3⌋ = 3 by rw [Int.floor_eq_iff] <;> norm_num]
    decide

/-! ## C3: getLogBar -/

/-- The ramp lookup that `logBarLoop` performs before appending the
character at 0-indexed position `j` (= the length of the string built so
far): `logChars[ceil(len(logChars) * j / maxWidth) - 1]`. -/
def rampAt (maxWidth : ℕ) (j : ℕ) : Option Char :=
  pyGet logChars (⌈((logChars.length : ℚ) * (j : ℚ)) / (maxWidth : ℚ)⌉ - 1)

lemma pyGet_logChars_some (i : ℤ) (h0 : 0 ≤ i) (h3 : i ≤ 3) :
    ∃ c, pyGet logChars i = some c := by
  interval_cases i
  · exact ⟨'-', by decide⟩
  · exact ⟨'~', by decide⟩
  · exact ⟨'=', by decide⟩
  · exact ⟨'#', by decide⟩

lemma pyGet_logChars_none (i : ℤ) (h4 : 4 ≤ i) : pyGet logChars i = none := by
  rw [pyGet, if_pos (by omega)]
  rw [List.get?_eq_none]
  simp only [logChars, List.length_cons, List.length_nil]
  omega

lemma prefix_get? {α : Type} {s t : List α} (h : s <+: t) {j : ℕ} (hj : j < s.length) :
    t.get? j = s.get? j := by
  obtain ⟨r, rfl⟩ := h
  exact List.get?_append hj

lemma ceil_idx_lower {x : ℚ} (hx : 0 < x) : 0 ≤ ⌈x⌉ - 1 := by
  have h := Int.lt_ceil (z := 0) (a := x)
  have h2 := h.mpr (by exact_mod_cast hx)
  omega

lemma ceil_idx_upper {x : ℚ} (hx : x ≤ 4) : ⌈x⌉ - 1 ≤ 3 := by
  have h := Int.ceil_le (z := 4) (a := x)
  have h2 := h.mpr (by exact_mod_cast hx)
  omega

lemma ceil_idx_ge {x : ℚ} (hx : 4 < x) : 4 ≤ ⌈x⌉ - 1 := by
  have h := Int.lt_ceil (z := 4) (a := x)
  have h2 := h.mpr (by exact_mod_cast hx)
  omega

/-- The ramp index computed by `logBarLoop` at string length `n` is within
the ramp whenever `1 ≤ n ≤ maxWidth`. -/
lemma rampIdx_bounds (mW n : ℕ) (hmW : 0 < mW) (h1 : 1 ≤ n) (h2 : n ≤ mW) :
    0 ≤ ⌈((logChars.length : ℚ) * (n : ℚ)) / (mW : ℚ)⌉ - 1 ∧
    ⌈((logChars.length : ℚ) * (n : ℚ)) / (mW : ℚ)⌉ - 1 ≤ 3 := by
  have hmWQ : (0 : ℚ) < (mW : ℚ) := by exact_mod_cast hmW
  have hlen : ((logChars.length : ℚ)) = 4 := by decide
  constructor
  · apply ceil_idx_lower
    rw [hlen]
    apply div_pos _ hmWQ
    have : (1 : ℚ) ≤ (n : ℚ) := by exact_mod_cast h1
    linarith
  · apply ceil_idx_upper
    rw [hlen, div_le_iff₀ hmWQ]
    have hn : ((n : ℚ)) ≤ (mW : ℚ) := by exact_mod_cast h2
    linarith

/-- The ramp index computed by `logBarLoop` at string length `maxWidth + 1`
is out of the ramp. -/
lemma rampIdx_overflow (mW : ℕ) (hmW : 0 < mW) :
    4 ≤ ⌈((logChars.length : ℚ) * ((mW + 1 : ℕ) : ℚ)) / (mW : ℚ)⌉ - 1 := by
  have hmWQ : (0 : ℚ) < (mW : ℚ) := by exact_mod_cast hmW
  have hlen : ((logChars.length : ℚ)) = 4 := by decide
  apply ceil_idx_ge
  rw [hlen, lt_div_iff₀ hmWQ]
  push_cast
  linarith

lemma logBarLoop_some_aux (width : ℚ) (mW : ℕ) (hmW : 0 < mW) :
    ∀ n ch s t, ⌈width⌉.toNat - s.length = n →
      logBarLoop width mW true ch s = some t →
      s <+: t ∧ t.length = max s.length ⌈width⌉.toNat ∧
      (∀ j, s.length ≤ j → j < t.length → t.get? j = rampAt mW j) := by
  intro n
  induction n with
  | zero =>
    intro ch s t hn h
    have hcond : ¬ ((s.length : ℚ) < width) := by
      intro hc
      have := ceil_pos_of_lt hc
      omega
    rw [logBarLoop, if_neg hcond] at h
    obtain rfl : s = t := Option.some_injective _ h
    have hle : ⌈width⌉.toNat ≤ s.length := by omega
    exact ⟨List.prefix_refl s, by omega, fun j hj1 hj2 => absurd hj2 (by omega)⟩
  | succ n ih =>
    intro ch s t hn h
    have hlt : s.length < ⌈width⌉.toNat := by omega
    have hcond : (s.length : ℚ) < width := by
      have h1 : ((s.length : ℤ) : ℚ) ≤ (⌈width⌉ : ℚ) - 1 := by
        have : (s.length : ℤ) + 1 ≤ ⌈width⌉ := by omega
        have hq : ((s.length : ℤ) + 1 : ℚ) ≤ (⌈width⌉ : ℚ) := by exact_mod_cast this
        push_cast at hq ⊢
        linarith
      have h2 : (⌈width⌉ : ℚ) - 1 < width := by
        have := Int.ceil_lt_add_one width
        linarith
      calc ((s.length : ℕ) : ℚ) = ((s.length : ℤ) : ℚ) := by push_cast; ring
        _ ≤ (⌈width⌉ : ℚ) - 1 := h1
        _ < width := h2
    rw [logBarLoop, if_pos hcond, if_pos rfl, if_neg (by omega)] at h
    rcases hg : pyGet logChars
        (⌈((logChars.length : ℚ) * (s.length : ℚ)) / (mW : ℚ)⌉ - 1) with _ | c
    · rw [hg] at h
      exact absurd h (by simp)
    · rw [hg] at h
      have hm : ⌈width⌉.toNat - (s ++ [c]).length = n := by
        simp only [List.length_append, List.length_cons, List.length_nil]
        omega
      obtain ⟨hpre, hlen, hget⟩ := ih c (s ++ [c]) t hm h
      refine ⟨(List.prefix_append s [c]).trans hpre, ?_, ?_⟩
      · rw [hlen]
        simp only [List.length_append, List.length_cons, List.length_nil]
        omega
      · intro j hj1 hj2
        rcases eq_or_lt_of_le hj1 with hj | hj
        · have hj' : j < (s ++ [c]).length := by
            simp only [List.length_append, List.length_cons, List.length_nil]
            omega
          rw [prefix_get? hpre hj', ← hj]
          rw [List.get?_concat_length]
          rw [rampAt, ← hg]
        · exact hget j (by simp only [List.length_append, List.length_cons,
            List.length_nil]; omega) hj2

lemma logBarLoop_none_aux (width : ℚ) (mW : ℕ) (hmW : 0 < mW)
    (hw : (mW : ℚ) + 1 < width) :
    ∀ n ch s, 1 ≤ s.length → s.length ≤ mW + 1 → mW + 1 - s.length = n →
      logBarLoop width mW true ch s = none := by
  intro n
  induction n with
  | zero =>
    intro ch s hs1 hs2 hn
    have hlen : s.length = mW + 1 := by omega
    have hcond : (s.length : ℚ) < width := by
      rw [hlen]
      push_cast
      linarith
    rw [logBarLoop, if_pos hcond, if_pos rfl, if_neg (by omega)]
    have hover := rampIdx_overflow mW hmW
    rw [hlen, pyGet_logChars_none _ hover]
  | succ n ih =>
    intro ch s hs1 hs2 hn
    have hlen : s.length ≤ mW := by omega
    have hcond : (s.length : ℚ) < width := by
      have : ((s.length : ℕ) : ℚ) ≤ (mW : ℚ) := by exact_mod_cast hlen
      linarith
    rw [logBarLoop, if_pos hcond, if_pos rfl, if_neg (by omega)]
    obtain ⟨hlo, hhi⟩ := rampIdx_bounds mW s.length hmW hs1 hlen
    obtain ⟨c, hc⟩ := pyGet_logChars_some _ hlo hhi
    rw [hc]
    exact ih c (s ++ [c]) (by simp) (by simp; omega) (by simp; omega)

lemma logBarLoop_total_aux (width : ℚ) (mW : ℕ) (hmW : 0 < mW)
    (hw : width ≤ (mW : ℚ) + 1) :
    ∀ n ch s, 1 ≤ s.length → ⌈width⌉.toNat - s.length = n →
      ∃ t, logBarLoop width mW true ch s = some t := by
  intro n
  induction n with
  | zero =>
    intro ch s hs1 hn
    have hcond : ¬ ((s.length : ℚ) < width) := by
      intro hc
      have := ceil_pos_of_lt hc
      omega
    exact ⟨s, by rw [logBarLoop, if_neg hcond]⟩
  | succ n ih =>
    intro ch s hs1 hn
    have hlt : s.length < ⌈width⌉.toNat := by omega
    have hcond : (s.length : ℚ) < width := by
      have h1 : ((s.length : ℤ) : ℚ) ≤ (⌈width⌉ : ℚ) - 1 := by
        have hst : (s.length : ℤ) + 1 ≤ ⌈width⌉ := by omega
        have hq : ((s.length : ℤ) + 1 : ℚ) ≤ (⌈width⌉ : ℚ) := by exact_mod_cast hst
        linarith
      have h2 : (⌈width⌉ : ℚ) - 1 < width := by
        have := Int.ceil_lt_add_one width
        linarith
      calc ((s.length : ℕ) : ℚ) = ((s.length : ℤ) : ℚ) := by push_cast; ring
        _ ≤ (⌈width⌉ : ℚ) - 1 := h1
        _ < width := h2
    have hlenW : s.length ≤ mW := by
      have hcw : (s.length : ℚ) < (mW : ℚ) + 1 := lt_of_lt_of_le hcond hw
      have : s.length < mW + 1 := by exact_mod_cast hcw
      omega
    obtain ⟨hlo, hhi⟩ := rampIdx_bounds mW s.length hmW hs1 hlenW
    obtain ⟨c, hc⟩ := pyGet_logChars_some _ hlo hhi
    obtain ⟨t, ht⟩ := ih c (s ++ [c]) (by simp) (by simp; omega)
    exact ⟨t, by rw [logBarLoop, if_pos hcond, if_pos rfl, if_neg (by omega), hc]; exact ht⟩

/-- C3 (corrected statement): in log mode with a positive scale and width,
any bar `getLogBar` successfully renders has `-` at 1-indexed position 1 and
at each later position `i` the ramp character
`logChars[ceil(4 * (i - 1) / maxWidth) - 1]` — the index uses the string
length *before* the append, not the position itself, and is not clamped:
rendering succeeds whenever `value / scale ≤ maxWidth + 1` and raises
`IndexError` whenever `maxWidth + 1 < value / scale`. -/
theorem C3_getLogBar (value scale : ℚ) (mW : ℕ) (hs : 0 < scale) (hmW : 0 < mW) :
    (∀ t, getLogBar value scale mW true = some t → t ≠ [] →
      t.get? 0 = some '-' ∧ ∀ j, 1 ≤ j → j < t.length → t.get? j = rampAt mW j) ∧
    (value / scale ≤ (mW : ℚ) + 1 → ∃ t, getLogBar value scale mW true = some t) ∧
    ((mW : ℚ) + 1 < value / scale → getLogBar value scale mW true = none) := by
  have hsne : scale ≠ 0 := ne_of_gt hs
  refine ⟨?_, ?_, ?_⟩
  · intro t ht hne
    rw [getLogBar, if_neg hsne] at ht
    by_cases hr : value / scale < 1
    · rw [if_pos hr] at ht
      exact absurd (Option.some_injective _ ht).symm hne
    · rw [if_neg hr] at ht
      obtain ⟨hpre, hlen, hget⟩ :=
        logBarLoop_some_aux (value / scale) mW hmW _ '-' ['-'] t rfl ht
      refine ⟨?_, fun j hj1 hj2 => hget j (by simpa using hj1) hj2⟩
      rw [prefix_get? hpre (by simp)]
      rfl
  · intro hle
    rw [getLogBar, if_neg hsne]
    by_cases hr : value / scale < 1
    · exact ⟨[], by rw [if_pos hr]⟩
    · rw [if_neg hr]
      exact logBarLoop_total_aux (value / scale) mW hmW hle _ '-' ['-'] (by simp) rfl
  · intro hgt
    have hr : ¬ (value / scale < 1) := by
      push_neg
      have : (1 : ℚ) ≤ (mW : ℚ) + 1 := by
        have : (0 : ℚ) ≤ (mW : ℚ) := by positivity
        linarith
      linarith
    rw [getLogBar, if_neg hsne, if_neg hr]
    exact logBarLoop_none_aux (value / scale) mW hmW hgt _ '-' ['-'] (by simp)
      (by simp) rfl

/-- C3 witness: the theorem applied at `value = 4`, `scale = 1`,
`maxWidth = 4`: the render succeeds since `4/1 ≤ 4 + 1`. -/
theorem C3_getLogBar_witness : ∃ t, getLogBar 4 1 4 true = some t :=
  (C3_getLogBar 4 1 4 (by norm_num) (by norm_num)).2.1 (by norm_num)

lemma logBarLoop_step (width : ℚ) (mW : ℕ) (ch c : Char) (s : List Char)
    (hcond : (s.length : ℚ) < width) (hmW : mW ≠ 0)
    (hg : pyGet logChars
      (⌈((logChars.length : ℚ) * (s.length : ℚ)) / (mW : ℚ)⌉ - 1) = some c) :
    logBarLoop width mW true ch s = logBarLoop width mW true c (s ++ [c]) := by
  rw [logBarLoop, if_pos hcond, if_pos rfl, if_neg hmW, hg]

lemma logBarLoop_stop (width : ℚ) (mW : ℕ) (log : Bool) (ch : Char) (s : List Char)
    (hcond : ¬ ((s.length : ℚ) < width)) :
    logBarLoop width mW log ch s = some s := by
  rw [logBarLoop, if_neg hcond]

/-- C3 counterexample: `getLogBar 4 1 4 true` returns `"--~="`, whereas the
claimed formula `ramp[ceil(4*i/maxWidth) - 1]` predicts `"-~=#"`; and
`getLogBar 6 1 4 true` raises `IndexError` (the ramp index is not
clamped). -/
theorem C3_getLogBar_cex :
    getLogBar 4 1 4 true = some ['-', '-', '~', '='] ∧
    getLogBar 6 1 4 true = none := by
  constructor
  · have g1 : pyGet logChars
        (⌈((logChars.length : ℚ) * (((['-'] : List Char).length) : ℚ)) / ((4 : ℕ) : ℚ)⌉ - 1) =
        some '-' := by
      rw [show ((logChars.length : ℚ) * (((['-'] : List Char).length) : ℚ)) / ((4 : ℕ) : ℚ)
          = 1 by norm_num [logChars], Int.ceil_one]
      decide
    have g2 : pyGet logChars
        (⌈((logChars.length : ℚ) * (((['-', '-'] : List Char).length) : ℚ)) /
          ((4 : ℕ) : ℚ)⌉ - 1) = some '~' := by
      rw [show ((logChars.length : ℚ) * (((['-', '-'] : List Char).length) : ℚ)) /
          ((4 : ℕ) : ℚ) = 2 by norm_num [logChars],
        show ⌈(2 : ℚ)⌉ = 2 by rw [Int.ceil_eq_iff] <;> norm_num]
      decide
    have g3 : pyGet logChars
        (⌈((logChars.length : ℚ) * (((['-', '-', '~'] : List Char).length) : ℚ)) /
          ((4 : ℕ) : ℚ)⌉ - 1) = some '=' := by
      rw [show ((logChars.length : ℚ) * (((['-', '-', '~'] : List Char).length) : ℚ)) /
          ((4 : ℕ) : ℚ) = 3 by norm_num [logChars],
        show ⌈(3 : ℚ)⌉ = 3 by rw [Int.ceil_eq_iff] <;> norm_num]
      decide
    rw [getLogBar, if_neg (by norm_num), if_neg (by norm_num),
      show (4 : ℚ) / 1 = 4 by norm_num]
    rw [logBarLoop_step 4 4 '-' '-' ['-'] (by norm_num) (by norm_num) g1]
    show logBarLoop 4 4 true '-' ['-', '-'] = some ['-', '-', '~', '=']
    rw [logBarLoop_step 4 4 '-' '~' ['-', '-'] (by norm_num) (by norm_num) g2]
    show logBarLoop 4 4 true '~' ['-', '-', '~'] = some ['-', '-', '~', '=']
    rw [logBarLoop_step 4 4 '~' '=' ['-', '-', '~'] (by norm_num) (by norm_num) g3]
    show logBarLoop 4 4 true '=' ['-', '-', '~', '='] = some ['-', '-', '~', '=']
    exact logBarLoop_stop 4 4 true '=' ['-', '-', '~', '='] (by norm_num)
  · rw [getLogBar, if_neg (by norm_num), if_neg (by norm_num),
      show (6 : ℚ) / 1 = 6 by norm_num]
    exact logBarLoop_none_aux 6 4 (by norm_num) (by norm_num) 4 '-' ['-'] (by simp)
      (by simp) rfl

/-! ## C6: getSizeString -/

lemma sizeLoop_go (size : ℚ) (step : ℕ) (h : 99 < size) :
    sizeLoop size step = sizeLoop (size / 1024) (step + 1) := by
  rw [sizeLoop, if_pos h]

lemma sizeLoop_halt (size : ℚ) (step : ℕ) (h : ¬ 99 < size) :
    sizeLoop size step = (size, step) := by
  rw [sizeLoop, if_neg h]

/-- The loop of `getSizeString` divides by 1024 until the running value is
at most 99, and when it ran at least once the value before the last
division still exceeded 99. -/
lemma sizeLoop_spec (size : ℚ) (step : ℕ) :
    (sizeLoop size step).1 = size / 1024 ^ ((sizeLoop size step).2 - step) ∧
    step ≤ (sizeLoop size step).2 ∧
    (sizeLoop size step).1 ≤ 99 ∧
    ((sizeLoop size step).2 = step ∨
      99 < size / 1024 ^ ((sizeLoop size step).2 - step - 1)) := by
  induction size, step using sizeLoop.induct with
  | case1 size step h ih =>
    rw [sizeLoop_go size step h]
    obtain ⟨ih1, ih2, ih3, ih4⟩ := ih
    set r := sizeLoop (size / 1024) (step + 1) with hr
    have hk : r.2 - step = (r.2 - (step + 1)) + 1 := by omega
    have hpow : size / 1024 ^ (r.2 - step) = size / 1024 / 1024 ^ (r.2 - (step + 1)) := by
      rw [hk, pow_succ]
      rw [div_div]
      ring_nf
    refine ⟨by rw [hpow]; exact ih1, by omega, ih3, ?_⟩
    right
    by_cases hcase : r.2 = step + 1
    · have hz : r.2 - step - 1 = 0 := by omega
      rw [hz]
      simpa using h
    · rcases ih4 with h4 | h4
      · exact absurd h4 hcase
      · have hk2 : r.2 - step - 1 = (r.2 - (step + 1) - 1) + 1 := by omega
        rw [hk2, pow_succ, mul_comm ((1024 : ℚ) ^ (r.2 - (step + 1) - 1)) 1024, ← div_div]
        exact h4
  | case2 size step h =>
    rw [sizeLoop_halt size step h]
    exact ⟨by simp, le_refl step, not_lt.mp h, Or.inl rfl⟩

lemma roundHalfEven_mem (x : ℚ) (h1 : 19 / 20 ≤ x) (h2 : x ≤ 99) :
    1 ≤ roundHalfEven x ∧ roundHalfEven x ≤ 99 := by
  unfold roundHalfEven
  have hfl := Int.floor_le x
  have hfu := Int.lt_floor_add_one x
  by_cases ht : x - ⌊x⌋ = 1 / 2
  · rw [if_pos ht]
    have h3 : ((⌊x⌋ : ℤ) : ℚ) = x - 1 / 2 := by linarith
    have hge : 1 ≤ ⌊x⌋ := by
      have hq : (0 : ℚ) < ((⌊x⌋ : ℤ) : ℚ) := by rw [h3]; linarith
      have : (0 : ℤ) < ⌊x⌋ := by exact_mod_cast hq
      omega
    have hle : ⌊x⌋ ≤ 98 := by
      by_contra hc
      push_neg at hc
      have hq : ((99 : ℤ) : ℚ) ≤ ((⌊x⌋ : ℤ) : ℚ) := by exact_mod_cast hc
      rw [h3] at hq
      linarith
    split_ifs <;> omega
  · rw [if_neg ht]
    constructor
    · apply Int.le_floor.mpr
      push_cast
      linarith
    · have : ⌊x + 1 / 2⌋ < 100 := Int.floor_lt.mpr (by push_cast; linarith)
      omega

lemma roundHalfEven_small (x : ℚ) (h1 : 0 ≤ x) (h2 : x < 19 / 20) :
    0 ≤ roundHalfEven (10 * x) ∧ roundHalfEven (10 * x) ≤ 9 := by
  unfold roundHalfEven
  have hfl := Int.floor_le (10 * x)
  have hfu := Int.lt_floor_add_one (10 * x)
  by_cases ht : 10 * x - ⌊10 * x⌋ = 1 / 2
  · rw [if_pos ht]
    have h3 : ((⌊10 * x⌋ : ℤ) : ℚ) = 10 * x - 1 / 2 := by linarith
    have hge : 0 ≤ ⌊10 * x⌋ := Int.floor_nonneg.mpr (by linarith)
    have hle : ⌊10 * x⌋ ≤ 8 := by
      by_contra hc
      push_neg at hc
      have hq : ((9 : ℤ) : ℚ) ≤ ((⌊10 * x⌋ : ℤ) : ℚ) := by exact_mod_cast hc
      rw [h3] at hq
      linarith
    split_ifs <;> omega
  · rw [if_neg ht]
    constructor
    · exact Int.floor_nonneg.mpr (by linarith)
    · have : ⌊10 * x + 1 / 2⌋ < 10 := Int.floor_lt.mpr (by push_cast; linarith)
      omega

lemma fmt2f_length (x : ℚ) (h1 : 0 ≤ roundHalfEven x) (h2 : roundHalfEven x ≤ 99) :
    (fmt2f x).length = 2 := by
  unfold fmt2f
  rcases toString_int_length (roundHalfEven x) h1 h2 with h | h <;> simp [h]

lemma fmt1f_length_ge (x : ℚ) (h1 : 0 ≤ roundHalfEven (10 * x))
    (h2 : roundHalfEven (10 * x) ≤ 9) : 2 ≤ (fmt1f x).length := by
  unfold fmt1f
  simp only [List.length_append, List.length_cons]
  have h := toString_int_length (roundHalfEven (10 * x) / 10) (by omega) (by omega)
  omega

/-- C6 (amended): for every kilobyte count in `[0, 99 * 2^40]`,
`getSizeString` returns a numeric portion of exactly TWO printable
characters plus one unit-suffix character from `steps = [K, M, G, T, P]`
(three characters in total, matching the docstring), including for the
input 0. -/
theorem C6_getSizeString (val : ℚ) (h0 : 0 ≤ val) (hcap : val ≤ 99 * 2 ^ 40) :
    ∃ num c, getSizeString val = some (num ++ [c]) ∧ num.length = 2 ∧ c ∈ steps := by
  obtain ⟨hval, hstep0, hle, hlast⟩ := sizeLoop_spec val 0
  set p := sizeLoop val 0 with hp
  have hp1 : 0 ≤ p.1 := by rw [hval]; positivity
  have hp2 : p.2 ≤ 4 := by
    rcases hlast with h | h
    · omega
    · by_contra hgt
      push_neg at hgt
      have hpow : (1024 : ℚ) ^ 4 ≤ 1024 ^ (p.2 - 0 - 1) :=
        pow_le_pow_right (by norm_num) (by omega)
      have hval2 : 99 * 1024 ^ (p.2 - 0 - 1) < val := by
        rw [lt_div_iff₀ (by positivity)] at h
        linarith
      have hc4 : val ≤ 99 * 1024 ^ 4 := by
        rw [show (1024 : ℚ) ^ 4 = 2 ^ 40 by norm_num]
        exact hcap
      nlinarith
  have hsuffix : ∃ c, steps.get? p.2 = some c ∧ c ∈ steps := by
    interval_cases h : p.2
    · exact ⟨'K', by decide, by decide⟩
    · exact ⟨'M', by decide, by decide⟩
    · exact ⟨'G', by decide, by decide⟩
    · exact ⟨'T', by decide, by decide⟩
    · exact ⟨'P', by decide, by decide⟩
  obtain ⟨c, hcg, hcm⟩ := hsuffix
  by_cases hnum : 19 / 20 ≤ p.1
  · refine ⟨fmt2f p.1, c, ?_, ?_, hcm⟩
    · rw [getSizeString, ← hp, hcg, if_pos hnum]
    · obtain ⟨hb1, hb2⟩ := roundHalfEven_mem p.1 hnum hle
      exact fmt2f_length p.1 (by omega) hb2
  · push_neg at hnum
    obtain ⟨hb1, hb2⟩ := roundHalfEven_small p.1 hp1 hnum
    have hflen := fmt1f_length_ge p.1 hb1 hb2
    refine ⟨(fmt1f p.1).drop ((fmt1f p.1).length - 2), c, ?_, ?_, hcm⟩
    · rw [getSizeString, ← hp, hcg, if_neg (not_le.mpr hnum)]
    · rw [List.length_drop]
      omega

/-- C6 witness: the theorem applied at `val = 0`. -/
theorem C6_getSizeString_witness :
    ∃ num c, getSizeString 0 = some (num ++ [c]) ∧ num.length = 2 ∧ c ∈ steps :=
  C6_getSizeString 0 (by norm_num) (by norm_num)

/-- C6 counterexample: `getSizeString 0 = ".0K"` is 3 characters in total
(2-character numeric portion), not the claimed 3-character numeric portion
plus a suffix; and inside the claimed domain `[0, 2^60)` the input `2^47`
kilobytes runs past the end of the suffix list (`IndexError`). -/
theorem C6_getSizeString_cex :
    getSizeString 0 = some ['.', '0', 'K'] ∧
    (['.', '0', 'K'] : List Char).length = 3 ∧
    getSizeString (2 ^ 47) = none := by
  refine ⟨?_, by decide, ?_⟩
  · have hround : roundHalfEven (10 * (0 : ℚ)) = 0 := by
      rw [show (10 : ℚ) * 0 = 0 by norm_num]
      unfold roundHalfEven
      rw [Int.floor_zero]
      rw [if_neg (by norm_num)]
      rw [show (0 : ℚ) + 1 / 2 = 1 / 2 by norm_num,
        show ⌊(1 / 2 : ℚ)⌋ = 0 by rw [Int.floor_eq_iff] <;> norm_num]
    have hfmt : fmt1f 0 = ['0', '.', '0'] := by
      simp only [fmt1f, hround]
      decide
    have hsl : sizeLoop 0 0 = (0, 0) := sizeLoop_halt 0 0 (by norm_num)
    rw [getSizeString, hsl]
    simp only []
    rw [if_neg (by norm_num), hfmt]
    decide
  · have hsl : sizeLoop (2 ^ 47 : ℚ) 0 = (1 / 8, 5) := by
      rw [sizeLoop_go _ _ (by norm_num), show (2 ^ 47 : ℚ) / 1024 = 2 ^ 37 by norm_num,
        sizeLoop_go _ _ (by norm_num), show (2 ^ 37 : ℚ) / 1024 = 2 ^ 27 by norm_num,
        sizeLoop_go _ _ (by norm_num), show (2 ^ 27 : ℚ) / 1024 = 2 ^ 17 by norm_num,
        sizeLoop_go _ _ (by norm_num), show (2 ^ 17 : ℚ) / 1024 = 2 ^ 7 by norm_num,
        sizeLoop_go _ _ (by norm_num), show (2 ^ 7 : ℚ) / 1024 = 1 / 8 by norm_num,
        sizeLoop_halt _ _ (by norm_num)]
    rw [getSizeString, hsl]
    rfl

/-! ## find_old_files.py -/

/-- A Python value that is either a user-name string (from the passwd
table) or a raw numeric uid. -/
abbrev Owner := Sum (List Char) ℕ

/-- One `(st_size, mtime, file_path)` tuple stored by the scanner. -/
abbrev FileData := ℕ × ℚ × List Char

/-- `usage_data`: a `defaultdict(list)` keyed by owner. -/
abbrev UsageData := List (Owner × List FileData)

/-- `find_old_files.time_spans`: seconds per age-bin unit. -/
def time_spans : List (String × ℕ) :=
  [("minutes", 60), ("hours", 3600), ("days", 3600 * 24), ("weeks", 3600 * 24 * 7),
   ("months", 3600 * 24 * 30)]

/-- `userid_map.get (ownerid, ownerid)`: translate a numeric uid through the
passwd table (an input of the embedding, read from `/etc/passwd` in the
source), keeping the raw uid when there is no entry. -/
def lookupOwner (userid_map : List (ℕ × List Char)) (uid : ℕ) : Owner :=
  match getAssoc userid_map uid with
  | some name => Sum.inl name
  | none => Sum.inr uid

/-- `usage_data[owner].append fd` on a `defaultdict(list)`. -/
def appendUsage : UsageData → Owner → FileData → UsageData
  | [], owner, fd => [(owner, [fd])]
  | (o, l) :: rest, owner, fd =>
    if o = owner then (o, l ++ [fd]) :: rest else (o, l) :: appendUsage rest owner fd

/-- The stat data of one file-list entry encountered by `os.walk` in
`get_file_sizes_and_dates_by_uid`; entries whose `os.stat` raised are not
in the walk list (the bare `except: pass` skips them silently). -/
structure StatEntry where
  path : List Char
  is_file : Bool
  st_uid : ℕ
  st_mtime : ℚ
  st_ctime : ℚ
  st_size : ℕ

/-- Python `x in l` over a list. -/
def pyMem {α : Type} [DecidableEq α] (x : α) : List α → Bool
  | [] => false
  | y :: rest => if y = x then true else pyMem x rest

/-- The user filter of the walk loop: `users is not None and owner not in
users`. -/
def userExcluded (users : Option (List Owner)) (owner : Owner) : Bool :=
  match users with
  | some us => ! pyMem owner us
  | none => false

/-- The body of the walk loop of `get_file_sizes_and_dates_by_uid` for one
file, threading the state `(usage_data, min_date)`: skip non-regular files
(broken links), resolve the owner and apply the user filter, only then
update the oldest-mtime tracker with `max(st_mtime, st_ctime)`, and finally
apply the age filter before recording the file. -/
def scanStep (userid_map : List (ℕ × List Char)) (users : Option (List Owner))
    (min_age now : ℚ) (st : UsageData × ℚ) (e : StatEntry) : UsageData × ℚ :=
  if e.is_file = false then st
  else
    let owner := lookupOwner userid_map e.st_uid
    if userExcluded users owner then st
    else
      let mtime := max e.st_mtime e.st_ctime
      let min_date := min mtime st.2
      if now - mtime < min_age then (st.1, min_date)
      else (appendUsage st.1 owner (e.st_size, mtime, e.path), min_date)

/-- `find_old_files.get_file_sizes_and_dates_by_uid`, embedded over the
sequence of files encountered by `os.walk` and over the passwd table; the
two wall-clock reads are modelled by the single parameter `now`, so the
initial `min_date = int(datetime.now().timestamp())` is `⌊now⌋`.  The
source turns the translated user list into a `set`; list membership has the
same semantics. -/
def get_file_sizes_and_dates_by_uid (userid_map : List (ℕ × List Char))
    (walk : List StatEntry) (users : Option (List ℕ)) (min_age now : ℚ) :
    UsageData × ℚ :=
  let users2 := users.map (fun us => us.map (lookupOwner userid_map))
  walk.foldl (scanStep userid_map users2 min_age now) ([], ((⌊now⌋ : ℤ) : ℚ))

/-- Python `numpy.arange 0 stop step` for a nonzero step: multiples of
`step` starting at 0, `⌈stop / step⌉` of them (this matches numpy for
either sign of `step`). -/
def arangeNonzero (stop step : ℚ) : List ℚ :=
  (List.range ⌈stop / step⌉.toNat).map (fun (k : ℕ) => (k : ℚ) * step)

/-- `find_old_files.get_bin_bounds_string`, with numpy-array indexing of
the bounds (`none` models the `IndexError`). -/
def get_bin_bounds_string (bin_index : ℤ) (bin_bounds : List ℚ)
    (to_str : ℚ → List Char) (suffix : List Char) : Option (List Char) :=
  match pyGet bin_bounds bin_index, pyGet bin_bounds (bin_index + 1) with
  | some a, some b => some (to_str a ++ " to ".data ++ to_str b ++ ' ' :: suffix)
  | _, _ => none

/-- `d[k] = d.get(k, 0) + v` on a per-owner bin dictionary. -/
def bumpAssoc : List (ℤ × ℕ) → ℤ → ℕ → List (ℤ × ℕ)
  | [], k, v => [(k, v)]
  | (k2, v2) :: rest, k, v =>
    if k2 = k then (k2, v2 + v) :: rest else (k2, v2) :: bumpAssoc rest k v

/-- The inner loop body of `get_file_size_table` for one file: apply the
minimum-age filter, then add the byte size to bin
`int(file_age / age_bins_step)`. -/
def tallyFile (age_bins_step min_age now : ℚ) (oc : List (ℤ × ℕ)) (fd : FileData) :
    List (ℤ × ℕ) :=
  let file_age := now - fd.2.1
  if file_age < min_age then oc
  else bumpAssoc oc (pyTrunc (file_age / age_bins_step)) fd.1

/-- The inner loop of `get_file_size_table` over one owner's file list. -/
def tallyFiles (age_bins_step min_age now : ℚ) (oc : List (ℤ × ℕ))
    (fl : List FileData) : List (ℤ × ℕ) :=
  fl.foldl (tallyFile age_bins_step min_age now) oc

/-- `counts.setdefault(owner, dict())` followed by the in-place tally of
that owner's files. -/
def tallyOwner (age_bins_step min_age now : ℚ) :
    List (Owner × List (ℤ × ℕ)) → Owner → List FileData → List (Owner × List (ℤ × ℕ))
  | [], owner, fl => [(owner, tallyFiles age_bins_step min_age now [] fl)]
  | (o, r) :: rest, owner, fl =>
    if o = owner then (o, tallyFiles age_bins_step min_age now r fl) :: rest
    else (o, r) :: tallyOwner age_bins_step min_age now rest owner fl

/-- The counts loop of `get_file_size_table` over all owners of
`usage_data`. -/
def tableTally (age_bins_step min_age now : ℚ) (usage_data : UsageData) :
    List (Owner × List (ℤ × ℕ)) :=
  usage_data.foldl (fun counts p => tallyOwner age_bins_step min_age now counts p.1 p.2) []

/-- The row index of the pandas DataFrame built from the counts: the union
of the bin keys of all owners (pandas sorts this union; the embedding keeps
first-occurrence order, on which no claim depends). -/
def tableBins (counts : List (Owner × List (ℤ × ℕ))) : List ℤ :=
  (counts.foldr (fun p acc => p.2.map Prod.fst ++ acc) []).dedup

/-- The DataFrame produced by `get_file_size_table`: per-owner bin totals
plus the bin-bound label of every bin of the row index. -/
structure SizeTable where
  counts : List (Owner × List (ℤ × ℕ))
  index : List (List Char)

/-- `find_old_files.get_file_size_table`.  `none` models a raised
exception: the explicit unknown-time-span `Exception`, the numpy error from
a zero bin step, or the `IndexError` of `bin_bounds[i + 1]` while labelling
the rows.  The wall-clock reads are modelled by the single parameter
`now`. -/
def get_file_size_table (usage_data : UsageData) (min_date : ℚ) (age_bin_size : ℤ)
    (age_bin_type : String) (min_age : ℚ) (now : ℚ) : Option SizeTable :=
  match getAssoc time_spans age_bin_type with
  | none => none
  | some sp =>
    let age_bins_step : ℚ := (age_bin_size : ℚ) * (sp : ℚ)
    if age_bins_step = 0 then none
    else
      let oldest_age := now - min_date
      let age_bin_bounds := arangeNonzero (oldest_age + age_bins_step) age_bins_step
      let counts := tableTally age_bins_step min_age now usage_data
      match (tableBins counts).mapM (fun i =>
          get_bin_bounds_string i age_bin_bounds
            (fun b => (toString (pyTrunc (b / (sp : ℚ)))).data)
            (age_bin_type.data ++ " old".data)) with
      | none => none
      | some labels => some ⟨counts, labels⟩

/-! ## The path loop of duhist.main -/

/-- One input path of `duhist.main`: a directory with its `du_directory`
listing (entry name, size, and the entry's `lstat` mtime), or a regular
file with its `du_file` size and `lstat` mtime. -/
inductive DuPath where
  | dir (path : List Char) (entries : List (List Char × ℕ × ℚ))
  | file (path : List Char) (size : ℕ) (mtime : ℚ)

/-- The mutable state of the path loop of `duhist.main`: the two maps plus
the loop variable `map_name`, unbound (`none`) until the directory branch
first assigns it. -/
structure MainState where
  size_map : List (List Char × ℕ)
  date_map : List (List Char × ℚ)
  map_name : Option (List Char)

/-- One directory entry of the `du_directory` loop in `duhist.main`:
`map_name` is the bare entry name when a single path was given, otherwise
the joined path; the mtime is recorded only when sorting by time. -/
def dirStep (time_sort single : Bool) (path : List Char) (st : MainState)
    (ent : List Char × ℕ × ℚ) : MainState :=
  let full_name := path ++ '/' :: ent.1
  let map_name := if single then ent.1 else full_name
  { size_map := setAssoc st.size_map map_name ent.2.1
    date_map := if time_sort then setAssoc st.date_map map_name ent.2.2 else st.date_map
    map_name := some map_name }

/-- One path of the loop of `duhist.main` (lines 198-210).  In the
regular-file branch with `--time`, the mtime is stored under the leftover
`map_name` of the last directory entry processed; when no directory entry
was ever processed, evaluating `map_name` raises `NameError` (modelled by
`none`). -/
def pathStep (time_sort single : Bool) (st : MainState) : DuPath → Option MainState
  | DuPath.dir path entries => some (entries.foldl (dirStep time_sort single path) st)
  | DuPath.file path size mtime =>
    let st2 : MainState := { st with size_map := setAssoc st.size_map path size }
    if time_sort then
      match st2.map_name with
      | none => none
      | some m => some { st2 with date_map := setAssoc st2.date_map m mtime }
    else some st2

/-- The path loop of `duhist.main` over `du_paths`; `single` is
`len(du_paths) == 1`, which decides whether entry names are qualified. -/
def mainPathLoop (time_sort : Bool) (du_paths : List DuPath) : Option MainState :=
  du_paths.foldlM (pathStep time_sort (du_paths.length == 1)) ⟨[], [], none⟩

/-! ## C4: the oldest-mtime tracking of the scanner -/

/-- The oldest-mtime tracker as the walk loop actually computes it: over
the regular files that pass the user filter (the minimum-age filter is NOT
applied), folding `min (max st_mtime st_ctime)` from the initial clock
floor. -/
def minDateSpec (userid_map : List (ℕ × List Char)) (users : Option (List Owner))
    (walk : List StatEntry) (init : ℚ) : ℚ :=
  walk.foldl (fun m e =>
    if e.is_file = false then m
    else if userExcluded users (lookupOwner userid_map e.st_uid) then m
    else min (max e.st_mtime e.st_ctime) m) init

lemma scanStep_snd (um : List (ℕ × List Char)) (users : Option (List Owner))
    (ma now : ℚ) (acc : UsageData × ℚ) (e : StatEntry) :
    (scanStep um users ma now acc e).2 =
      (if e.is_file = false then acc.2
       else if userExcluded users (lookupOwner um e.st_uid) then acc.2
       else min (max e.st_mtime e.st_ctime) acc.2) := by
  simp only [scanStep]
  split_ifs <;> rfl

lemma scan_minDate_aux (um : List (ℕ × List Char)) (users : Option (List Owner))
    (ma now : ℚ) :
    ∀ (walk : List StatEntry) (acc : UsageData × ℚ),
      (walk.foldl (scanStep um users ma now) acc).2 = minDateSpec um users walk acc.2 := by
  intro walk
  induction walk with
  | nil => intro acc; rfl
  | cons e rest ih =>
    intro acc
    rw [List.foldl_cons, ih]
    simp only [minDateSpec, List.foldl_cons]
    rw [scanStep_snd]

/-- C4 (corrected statement): the `min_date` returned by
`get_file_sizes_and_dates_by_uid` is the minimum of
`max(st_mtime, st_ctime)` over the visited regular files **that pass the
user filter** (together with the initial clock value `⌊now⌋`); the
minimum-age filter is indeed not applied to the tracking, but the user
filter is. -/
theorem C4_min_date (um : List (ℕ × List Char)) (walk : List StatEntry)
    (users : Option (List ℕ)) (min_age now : ℚ) :
    (get_file_sizes_and_dates_by_uid um walk users min_age now).2 =
      minDateSpec um (users.map (fun us => us.map (lookupOwner um))) walk
        ((⌊now⌋ : ℤ) : ℚ) := by
  rw [get_file_sizes_and_dates_by_uid]
  exact scan_minDate_aux um _ min_age now walk ([], ((⌊now⌋ : ℤ) : ℚ))

/-- C4 counterexample: a single visited regular file with
`max(mtime, ctime) = 0` owned by uid 2, with the user filter set to
`[uid 1]` and the clock at 1000: the code keeps `min_date = 1000`, while
the claimed filter-independent tracking would give
`min (max 0 0) 1000 = 0`. -/
theorem C4_min_date_cex :
    (get_file_sizes_and_dates_by_uid [] [⟨[], true, 2, 0, 0, 1⟩] (some [1]) 0 1000).2
      = 1000 ∧
    min (max (0 : ℚ) 0) (1000 : ℚ) = 0 ∧ (1000 : ℚ) ≠ 0 := by
  refine ⟨?_, ?_, by norm_num⟩
  · have hf : ⌊(1000 : ℚ)⌋ = 1000 := by
      rw [Int.floor_eq_iff]
      norm_num
    simp only [get_file_sizes_and_dates_by_uid, List.map, List.foldl_cons, List.foldl_nil,
      scanStep, lookupOwner, getAssoc, userExcluded, pyMem, hf]
    norm_num
    decide
  · rw [max_self, min_eq_left (by norm_num : (0 : ℚ) ≤ 1000)]

/-! ## C10: the regular-file branch of the duhist.main path loop -/

lemma getAssoc_setAssoc_self {α β : Type} [DecidableEq α] (l : List (α × β)) (k : α)
    (v : β) : getAssoc (setAssoc l k v) k = some v := by
  induction l with
  | nil => simp [setAssoc, getAssoc]
  | cons p rest ih =>
    obtain ⟨k2, v2⟩ := p
    rw [setAssoc]
    split_ifs with h
    · rw [getAssoc, if_pos h]
    · rw [getAssoc, if_neg h]
      exact ih

lemma getAssoc_setAssoc_ne {α β : Type} [DecidableEq α] (l : List (α × β)) (k k2 : α)
    (v : β) (h : k ≠ k2) : getAssoc (setAssoc l k v) k2 = getAssoc l k2 := by
  induction l with
  | nil => simp [setAssoc, getAssoc, h]
  | cons p rest ih =>
    obtain ⟨k3, v3⟩ := p
    rw [setAssoc]
    split_ifs with h3
    · subst h3
      rw [getAssoc, if_neg h, getAssoc, if_neg h]
    · rw [getAssoc, getAssoc]
      split_ifs with h4
      · rfl
      · exact ih

lemma dirFold_map_name (ts single : Bool) (path : List Char) :
    ∀ (entries : List (List Char × ℕ × ℚ)) (st : MainState) (h : entries ≠ []),
      (entries.foldl (dirStep ts single path) st).map_name =
        some (if single then (entries.getLast h).1
          else path ++ '/' :: (entries.getLast h).1) := by
  intro entries
  induction entries with
  | nil => intro st h; exact absurd rfl h
  | cons e rest ih =>
    intro st h
    cases rest with
    | nil =>
      simp only [List.foldl_cons, List.foldl_nil, dirStep, List.getLast_singleton]
    | cons e2 rest2 =>
      rw [List.foldl_cons, ih _ (by simp)]
      rw [List.getLast_cons (by simp : (e2 :: rest2) ≠ [])]

lemma dirFold_date_other (ts single : Bool) (path : List Char) :
    ∀ (entries : List (List Char × ℕ × ℚ)) (st : MainState) (f : List Char),
      (∀ e ∈ entries, f ≠ (if single then e.1 else path ++ '/' :: e.1)) →
      getAssoc (entries.foldl (dirStep ts single path) st).date_map f =
        getAssoc st.date_map f := by
  intro entries
  induction entries with
  | nil => intro st f _; rfl
  | cons e rest ih =>
    intro st f hf
    rw [List.foldl_cons, ih _ f (fun e2 he2 => hf e2 (List.mem_cons_of_mem e he2))]
    simp only [dirStep]
    cases ts with
    | false => rfl
    | true =>
      simp only [if_true]
      exact getAssoc_setAssoc_ne _ _ _ _ fun hc => hf e (List.mem_cons_self e rest)
        (by rw [← hc])

/-- C10: with `--time`, a regular-file path stores its mtime in `date_map`
under the `map_name` left over from the last directory entry processed (not
under the file's own key), and when the first processed path is a regular
file, `map_name` is unbound and the loop fails with `NameError`. -/
theorem C10_file_branch_date_map :
    (∀ (f : List Char) (size : ℕ) (mtime : ℚ) (rest : List DuPath),
      mainPathLoop true (DuPath.file f size mtime :: rest) = none) ∧
    (∀ (d : List Char) (entries : List (List Char × ℕ × ℚ)) (f : List Char)
      (size : ℕ) (mtime : ℚ) (h : entries ≠ [])
      (hf : ∀ e ∈ entries, f ≠ d ++ '/' :: e.1),
      ∃ st, mainPathLoop true [DuPath.dir d entries, DuPath.file f size mtime]
          = some st ∧
        st.map_name = some (d ++ '/' :: (entries.getLast h).1) ∧
        getAssoc st.date_map (d ++ '/' :: (entries.getLast h).1) = some mtime ∧
        getAssoc st.date_map f = none) := by
  constructor
  · intro f size mtime rest
    simp [mainPathLoop, pathStep]
  · intro d entries f size mtime h hf
    have hsingle : ([DuPath.dir d entries, DuPath.file f size mtime].length == 1) = false :=
      rfl
    have hmap := dirFold_map_name true false d entries ⟨[], [], none⟩ h
    rw [if_neg (by simp)] at hmap
    set st1 := entries.foldl (dirStep true false d) ⟨[], [], none⟩ with hst1
    have hdate := dirFold_date_other true false d entries ⟨[], [], none⟩ f
      (by intro e he; rw [if_neg (by simp)]; exact hf e he)
    refine ⟨{ st1 with
        size_map := setAssoc st1.size_map f size,
        date_map := setAssoc st1.date_map (d ++ '/' :: (entries.getLast h).1) mtime }, ?_, ?_, ?_, ?_⟩
    · simp only [mainPathLoop, hsingle, List.foldlM_cons, List.foldlM_nil, pathStep]
      rw [← hst1]
      simp only [Option.bind_eq_bind, Option.bind_some, Option.some_bind]
      rw [hmap]
      rfl
    · exact hmap
    · exact getAssoc_setAssoc_self _ _ _
    · rw [getAssoc_setAssoc_ne _ _ _ _
        (fun hc => hf (entries.getLast h) (List.getLast_mem h) (by rw [← hc]))]
      exact hdate

/-- C10 witness: the theorem applied to a one-entry directory `d` followed
by the regular file `f`, and to a walk whose first path is a regular
file. -/
theorem C10_file_branch_date_map_witness :
    mainPathLoop true [DuPath.file ['f'] 3 5] = none ∧
    ∃ st, mainPathLoop true
        [DuPath.dir ['d'] [(['e'], 1, 2)], DuPath.file ['f'] 3 5] = some st ∧
      st.map_name = some ['d', '/', 'e'] ∧
      getAssoc st.date_map ['d', '/', 'e'] = some 5 ∧
      getAssoc st.date_map ['f'] = none := by
  constructor
  · exact C10_file_branch_date_map.1 ['f'] 3 5 []
  · have h := C10_file_branch_date_map.2 ['d'] [(['e'], 1, 2)] ['f'] 3 5
      (by simp) (by intro e he; simp at he; subst he; decide)
    simpa using h

/-! ## C1: row sums of the usage table -/

/-- The byte total of one owner's row of the table: the sum over that
owner's age-bin cells. -/
def rowSum (row : List (ℤ × ℕ)) : ℕ := (row.map Prod.snd).sum

/-- The sum of `size_bytes` of the records that pass the minimum-age
filter (`age = now - mtime` at least `min_age`). -/
def filteredSizes (min_age now : ℚ) : List FileData → ℕ
  | [] => 0
  | fd :: rest =>
    (if now - fd.2.1 < min_age then 0 else fd.1) + filteredSizes min_age now rest

lemma rowSum_bumpAssoc (l : List (ℤ × ℕ)) (k : ℤ) (v : ℕ) :
    rowSum (bumpAssoc l k v) = rowSum l + v := by
  induction l with
  | nil => simp [bumpAssoc, rowSum]
  | cons p rest ih =>
    obtain ⟨k2, v2⟩ := p
    rw [bumpAssoc]
    split_ifs with h
    · simp only [rowSum, List.map_cons, List.sum_cons]
      omega
    · simp only [rowSum, List.map_cons, List.sum_cons] at ih ⊢
      omega

lemma rowSum_tallyFiles (step ma now : ℚ) :
    ∀ (fl : List FileData) (oc : List (ℤ × ℕ)),
      rowSum (tallyFiles step ma now oc fl) = rowSum oc + filteredSizes ma now fl := by
  intro fl
  induction fl with
  | nil => intro oc; simp [tallyFiles, filteredSizes]
  | cons fd rest ih =>
    intro oc
    rw [tallyFiles, List.foldl_cons, ← tallyFiles, ih, filteredSizes, tallyFile]
    split_ifs with h
    · omega
    · rw [rowSum_bumpAssoc]
      omega

lemma getAssoc_tallyOwner_self (step ma now : ℚ) (o : Owner) (fl : List FileData) :
    ∀ (c : List (Owner × List (ℤ × ℕ))), getAssoc c o = none →
      getAssoc (tallyOwner step ma now c o fl) o =
        some (tallyFiles step ma now [] fl) := by
  intro c
  induction c with
  | nil => intro _; simp [tallyOwner, getAssoc]
  | cons p rest ih =>
    obtain ⟨o2, r⟩ := p
    intro hc
    rw [getAssoc] at hc
    by_cases h2 : o2 = o
    · rw [if_pos h2] at hc
      exact absurd hc (Option.some_ne_none r)
    · rw [if_neg h2] at hc
      rw [tallyOwner, if_neg h2, getAssoc, if_neg h2]
      exact ih hc

lemma getAssoc_tallyOwner_ne (step ma now : ℚ) (o o2 : Owner) (fl : List FileData)
    (h : o ≠ o2) :
    ∀ (c : List (Owner × List (ℤ × ℕ))),
      getAssoc (tallyOwner step ma now c o fl) o2 = getAssoc c o2 := by
  intro c
  induction c with
  | nil => simp [tallyOwner, getAssoc, h]
  | cons p rest ih =>
    obtain ⟨o3, r⟩ := p
    rw [tallyOwner]
    split_ifs with h3
    · subst h3
      rw [getAssoc, if_neg h, getAssoc, if_neg h]
    · rw [getAssoc, getAssoc]
      split_ifs with h4
      · rfl
      · exact ih

lemma getAssoc_tableFold_not_mem (step ma now : ℚ) (o : Owner) :
    ∀ (usage : UsageData) (acc : List (Owner × List (ℤ × ℕ))),
      o ∉ usage.map Prod.fst →
      getAssoc (usage.foldl (fun c p => tallyOwner step ma now c p.1 p.2) acc) o =
        getAssoc acc o := by
  intro usage
  induction usage with
  | nil => intro acc _; rfl
  | cons p rest ih =>
    intro acc hmem
    rw [List.foldl_cons, ih _ (fun hc => hmem (by simp [hc]))]
    exact getAssoc_tallyOwner_ne step ma now p.1 o p.2
      (fun hc => hmem (by simp [hc])) acc

lemma tableTally_getAssoc (step ma now : ℚ) :
    ∀ (usage : UsageData) (acc : List (Owner × List (ℤ × ℕ))) (o : Owner)
      (fl : List FileData), (o, fl) ∈ usage → (usage.map Prod.fst).Nodup →
      getAssoc acc o = none →
      getAssoc (usage.foldl (fun c p => tallyOwner step ma now c p.1 p.2) acc) o =
        some (tallyFiles step ma now [] fl) := by
  intro usage
  induction usage with
  | nil => intro acc o fl hmem _ _; exact absurd hmem (List.not_mem_nil _)
  | cons p rest ih =>
    intro acc o fl hmem hnd hacc
    rw [List.map_cons, List.nodup_cons] at hnd
    rcases List.mem_cons.mp hmem with heq | hmem2
    · obtain rfl : p = (o, fl) := heq.symm
      rw [List.foldl_cons,
        getAssoc_tableFold_not_mem step ma now o rest _ hnd.1]
      exact getAssoc_tallyOwner_self step ma now o fl acc hacc
    · have ho2 : p.1 ≠ o := by
        intro hc
        exact hnd.1 (hc ▸ (List.mem_map.mpr ⟨(o, fl), hmem2, rfl⟩))
      rw [List.foldl_cons]
      exact ih _ o fl hmem2 hnd.2
        (by rw [getAssoc_tallyOwner_ne step ma now p.1 o p.2 ho2 acc]; exact hacc)

/-- C1: with a recognized bin unit and a positive bin size, for every owner
of the (dictionary, hence owner-Nodup) input, the sum over that owner's
age-bin cells of the table built by `get_file_size_table` equals the sum of
`size_bytes` of that owner's records whose age `now - mtime` is at least
`min_age`; the counts of any table the function returns are exactly
`tableTally`. -/
theorem C1_row_sums (usage_data : UsageData) (min_date : ℚ) (age_bin_size : ℤ)
    (age_bin_type : String) (min_age now : ℚ) (sp : ℕ)
    (hsp : getAssoc time_spans age_bin_type = some sp) (hsz : 0 < age_bin_size)
    (hnd : (usage_data.map Prod.fst).Nodup) (o : Owner) (fl : List FileData)
    (ho : (o, fl) ∈ usage_data) :
    ∃ row,
      getAssoc (tableTally ((age_bin_size : ℚ) * (sp : ℚ)) min_age now usage_data) o
        = some row ∧
      rowSum row = filteredSizes min_age now fl ∧
      ∀ t, get_file_size_table usage_data min_date age_bin_size age_bin_type min_age now
          = some t →
        t.counts = tableTally ((age_bin_size : ℚ) * (sp : ℚ)) min_age now usage_data := by
  refine ⟨tallyFiles ((age_bin_size : ℚ) * (sp : ℚ)) min_age now [] fl, ?_, ?_, ?_⟩
  · exact tableTally_getAssoc _ min_age now usage_data [] o fl ho hnd rfl
  · rw [rowSum_tallyFiles]
    simp [rowSum]
  · intro t ht
    simp only [get_file_size_table, hsp] at ht
    by_cases hz : (age_bin_size : ℚ) * (sp : ℚ) = 0
    · rw [if_pos hz] at ht
      cases ht
    · rw [if_neg hz] at ht
      rcases hmm : (tableBins (tableTally ((age_bin_size : ℚ) * (sp : ℚ)) min_age now
          usage_data)).mapM (fun i =>
            get_bin_bounds_string i
              (arangeNonzero (now - min_date + (age_bin_size : ℚ) * (sp : ℚ))
                ((age_bin_size : ℚ) * (sp : ℚ)))
              (fun b => (toString (pyTrunc (b / (sp : ℚ)))).data)
              (age_bin_type.data ++ " old".data)) with _ | labels
      · rw [hmm] at ht
        cases ht
      · rw [hmm] at ht
        obtain rfl : SizeTable.mk (tableTally ((age_bin_size : ℚ) * (sp : ℚ)) min_age now
            usage_data) labels = t := Option.some_injective _ ht
        rfl

/-- C1 witness: the theorem applied to one owner (uid 7) with one 5-byte
record of age 50 in 1-minute bins. -/
theorem C1_row_sums_witness :
    ∃ row,
      getAssoc (tableTally (((1 : ℤ) : ℚ) * ((60 : ℕ) : ℚ)) 0 100
        [(Sum.inr 7, [(5, 50, [])])]) (Sum.inr 7) = some row ∧
      rowSum row = filteredSizes 0 100 [(5, 50, [])] ∧
      ∀ t, get_file_size_table [(Sum.inr 7, [(5, 50, [])])] 50 1 "minutes" 0 100
          = some t →
        t.counts = tableTally (((1 : ℤ) : ℚ) * ((60 : ℕ) : ℚ)) 0 100
          [(Sum.inr 7, [(5, 50, [])])] :=
  C1_row_sums [(Sum.inr 7, [(5, 50, [])])] 50 1 "minutes" 0 100 60 (by decide)
    (by norm_num) (by simp) (Sum.inr 7) [(5, 50, [])] (List.mem_singleton.mpr rfl)

/-! ## C5: bin assignment and bin boundaries -/

lemma time_spans_pos (u : String) (sp : ℕ) (h : getAssoc time_spans u = some sp) :
    0 < sp := by
  simp only [time_spans, getAssoc] at h
  split_ifs at h <;> injection h with h2 <;> omega

lemma mapM_option_some {α β : Type} (f : α → Option β) :
    ∀ l : List α, (∀ a ∈ l, ∃ b, f a = some b) → ∃ r, l.mapM f = some r := by
  intro l
  induction l with
  | nil => exact fun _ => ⟨[], rfl⟩
  | cons a rest ih =>
    intro h
    obtain ⟨b, hb⟩ := h a (List.mem_cons_self a rest)
    obtain ⟨r, hr⟩ := ih (fun a2 ha2 => h a2 (List.mem_cons_of_mem a ha2))
    exact ⟨b :: r, by rw [List.mapM_cons, hb, hr]; rfl⟩

lemma keys_bumpAssoc {Q : ℤ → Prop} :
    ∀ (l : List (ℤ × ℕ)) (k : ℤ) (v : ℕ), (∀ k2 ∈ l.map Prod.fst, Q k2) → Q k →
      ∀ k2 ∈ (bumpAssoc l k v).map Prod.fst, Q k2 := by
  intro l
  induction l with
  | nil =>
    intro k v _ hk k2 hk2
    simp only [bumpAssoc, List.map_cons, List.map_nil, List.mem_singleton] at hk2
    exact hk2 ▸ hk
  | cons p rest ih =>
    intro k v hl hk k2 hk2
    obtain ⟨k3, v3⟩ := p
    rw [bumpAssoc] at hk2
    split_ifs at hk2 with h3
    · simp only [List.map_cons, List.mem_cons] at hk2
      rcases hk2 with h | h
      · exact h ▸ hl k3 (by simp)
      · exact hl k2 (by simp [h])
    · simp only [List.map_cons, List.mem_cons] at hk2
      rcases hk2 with h | h
      · exact h ▸ hl k3 (by simp)
      · exact ih k v (fun k4 hk4 => hl k4 (by simp [hk4])) hk k2 h

lemma keys_tallyFiles {Q : ℤ → Prop} (step ma now : ℚ) :
    ∀ (fl : List FileData) (oc : List (ℤ × ℕ)),
      (∀ fd ∈ fl, ¬ (now - fd.2.1 < ma) → Q (pyTrunc ((now - fd.2.1) / step))) →
      (∀ k ∈ oc.map Prod.fst, Q k) →
      ∀ k ∈ (tallyFiles step ma now oc fl).map Prod.fst, Q k := by
  intro fl
  induction fl with
  | nil => intro oc _ hoc; exact hoc
  | cons fd rest ih =>
    intro oc hfl hoc
    rw [tallyFiles, List.foldl_cons, ← tallyFiles]
    apply ih
    · exact fun fd2 h2 => hfl fd2 (List.mem_cons_of_mem fd h2)
    · rw [tallyFile]
      split_ifs with hage
      · exact hoc
      · exact keys_bumpAssoc oc _ fd.1 hoc
          (hfl fd (List.mem_cons_self fd rest) hage)

/-- All rows of an accumulated counts structure have keys satisfying `Q`. -/
def RowsQ (Q : ℤ → Prop) (c : List (Owner × List (ℤ × ℕ))) : Prop :=
  ∀ p ∈ c, ∀ k ∈ p.2.map Prod.fst, Q k

lemma rowsQ_tallyOwner {Q : ℤ → Prop} (step ma now : ℚ) (o : Owner) (fl : List FileData)
    (hfl : ∀ fd ∈ fl, ¬ (now - fd.2.1 < ma) → Q (pyTrunc ((now - fd.2.1) / step))) :
    ∀ (c : List (Owner × List (ℤ × ℕ))), RowsQ Q c →
      RowsQ Q (tallyOwner step ma now c o fl) := by
  intro c
  induction c with
  | nil =>
    intro _ p hp
    rw [tallyOwner] at hp
    rcases List.mem_singleton.mp hp with rfl
    exact keys_tallyFiles step ma now fl [] hfl (by simp)
  | cons p2 rest ih =>
    intro hc p hp
    obtain ⟨o2, r⟩ := p2
    rw [tallyOwner] at hp
    split_ifs at hp with h2
    · rcases List.mem_cons.mp hp with rfl | hmem
      · exact keys_tallyFiles step ma now fl r hfl
          (hc (o2, r) (List.mem_cons_self _ _))
      · exact hc p (List.mem_cons_of_mem _ hmem)
    · rcases List.mem_cons.mp hp with rfl | hmem
      · exact hc (o2, r) (List.mem_cons_self _ _)
      · exact ih (fun p3 hp3 => hc p3 (List.mem_cons_of_mem _ hp3)) p hmem

lemma rowsQ_tableTally {Q : ℤ → Prop} (step ma now : ℚ) :
    ∀ (usage : UsageData) (acc : List (Owner × List (ℤ × ℕ))),
      (∀ p ∈ usage, ∀ fd ∈ p.2, ¬ (now - fd.2.1 < ma) →
        Q (pyTrunc ((now - fd.2.1) / step))) →
      RowsQ Q acc →
      RowsQ Q (usage.foldl (fun c p => tallyOwner step ma now c p.1 p.2) acc) := by
  intro usage
  induction usage with
  | nil => intro acc _ hacc; exact hacc
  | cons p rest ih =>
    intro acc husage hacc
    rw [List.foldl_cons]
    apply ih
    · exact fun p2 hp2 => husage p2 (List.mem_cons_of_mem p hp2)
    · exact rowsQ_tallyOwner step ma now p.1 p.2
        (husage p (List.mem_cons_self p rest)) acc hacc

lemma tableBins_mem {Q : ℤ → Prop} (c : List (Owner × List (ℤ × ℕ))) (hc : RowsQ Q c) :
    ∀ k ∈ tableBins c, Q k := by
  intro k hk
  rw [tableBins, List.mem_dedup] at hk
  induction c with
  | nil => exact absurd hk (List.not_mem_nil k)
  | cons p rest ih =>
    rw [List.foldr_cons, List.mem_append] at hk
    rcases hk with h | h
    · exact hc p (List.mem_cons_self p rest) k h
    · exact ih (fun p2 hp2 => hc p2 (List.mem_cons_of_mem p hp2)) h

lemma arange_get_lt (stopq step : ℚ) (j : ℕ) (hj : j < ⌈stopq / step⌉.toNat) :
    (arangeNonzero stopq step).get? j = some ((j : ℚ) * step) := by
  rw [arangeNonzero, List.get?_map, List.get?_range hj]
  rfl

lemma arange_length (stopq step : ℚ) :
    (arangeNonzero stopq step).length = ⌈stopq / step⌉.toNat := by
  rw [arangeNonzero, List.length_map, List.length_range]

/-- C5 (amended): with a recognized unit, a positive bin size, the default
`min_age = 0`, and every record mtime between `min_date` and `now`: every
nonnegative-age record is assigned to bin `⌊(now - mtime) / step⌋`; the bin
boundaries are the multiples of the step from 0 below
`(now - min_date) + step`; and `get_file_size_table` succeeds — every
occupied bin, the oldest file's included, has both boundaries — provided
`now - min_date` is NOT an exact integer multiple of the bin width (when it
is, the boundary list is one short and labelling raises `IndexError`, see
the counterexample). -/
theorem C5_bin_assignment (usage_data : UsageData) (min_date : ℚ)
    (age_bin_size : ℤ) (age_bin_type : String) (now : ℚ) (sp : ℕ)
    (hsp : getAssoc time_spans age_bin_type = some sp) (hsz : 0 < age_bin_size)
    (hmt : ∀ p ∈ usage_data, ∀ fd ∈ p.2, min_date ≤ fd.2.1 ∧ fd.2.1 ≤ now)
    (hne : ¬ ∃ m : ℤ, now - min_date = (m : ℚ) * ((age_bin_size : ℚ) * (sp : ℚ))) :
    (∀ (oc : List (ℤ × ℕ)) (fd : FileData), 0 ≤ now - fd.2.1 →
      tallyFile ((age_bin_size : ℚ) * (sp : ℚ)) 0 now oc fd =
        bumpAssoc oc ⌊(now - fd.2.1) / ((age_bin_size : ℚ) * (sp : ℚ))⌋ fd.1) ∧
    (∀ j : ℕ, j < ⌈(now - min_date + (age_bin_size : ℚ) * (sp : ℚ)) /
        ((age_bin_size : ℚ) * (sp : ℚ))⌉.toNat →
      (arangeNonzero (now - min_date + (age_bin_size : ℚ) * (sp : ℚ))
        ((age_bin_size : ℚ) * (sp : ℚ))).get? j =
        some ((j : ℚ) * ((age_bin_size : ℚ) * (sp : ℚ)))) ∧
    (∃ t, get_file_size_table usage_data min_date age_bin_size age_bin_type 0 now
      = some t) := by
  have hsp0 : 0 < sp := time_spans_pos _ _ hsp
  set step : ℚ := (age_bin_size : ℚ) * (sp : ℚ) with hstepdef
  have hstep : (0 : ℚ) < step := by
    apply mul_pos
    · exact_mod_cast hsz
    · exact_mod_cast hsp0
  refine ⟨?_, ?_, ?_⟩
  · intro oc fd h
    rw [tallyFile]
    rw [if_neg (not_lt.mpr h), pyTrunc_of_nonneg _ (div_nonneg h hstep.le)]
  · intro j hj
    exact arange_get_lt _ step j hj
  · -- success of the whole table construction
    have hceil : ⌈(now - min_date + step) / step⌉ = ⌈(now - min_date) / step⌉ + 1 := by
      rw [add_div, div_self (ne_of_gt hstep), Int.ceil_add_one]
    have hQfile : ∀ p ∈ usage_data, ∀ fd ∈ p.2, ¬ (now - fd.2.1 < 0) →
        0 ≤ pyTrunc ((now - fd.2.1) / step) ∧
        pyTrunc ((now - fd.2.1) / step) < ⌈(now - min_date) / step⌉ := by
      intro p hp fd hfd hage
      obtain ⟨hmd, hnow⟩ := hmt p hp fd hfd
      have hage0 : 0 ≤ now - fd.2.1 := not_lt.mp hage
      rw [pyTrunc_of_nonneg _ (div_nonneg hage0 hstep.le)]
      have hfloor : ⌊(now - fd.2.1) / step⌋ ≤ ⌊(now - min_date) / step⌋ :=
        Int.floor_le_floor ((div_le_div_iff_of_pos_right hstep).mpr (by linarith))
      have hxne : (now - min_date) / step ≠ ((⌊(now - min_date) / step⌋ : ℤ) : ℚ) :=
        fun hc => hne ⟨⌊(now - min_date) / step⌋, (div_eq_iff (ne_of_gt hstep)).mp hc⟩
      have h1 : ((⌊(now - min_date) / step⌋ : ℤ) : ℚ) < (now - min_date) / step :=
        lt_of_le_of_ne (Int.floor_le _) (Ne.symm hxne)
      have h2 : (now - min_date) / step ≤ ((⌈(now - min_date) / step⌉ : ℤ) : ℚ) :=
        Int.le_ceil _
      have h3 : ⌊(now - min_date) / step⌋ < ⌈(now - min_date) / step⌉ := by
        exact_mod_cast h1.trans_le h2
      refine ⟨Int.floor_nonneg.mpr (div_nonneg hage0 hstep.le), by omega⟩
    have hrows : RowsQ (fun k => 0 ≤ k ∧ k < ⌈(now - min_date) / step⌉)
        (tableTally step 0 now usage_data) := by
      rw [tableTally]
      exact rowsQ_tableTally (Q := fun k => 0 ≤ k ∧ k < ⌈(now - min_date) / step⌉)
        step 0 now usage_data [] hQfile (fun p hp => absurd hp (List.not_mem_nil p))
    obtain ⟨labels, hlabels⟩ := mapM_option_some
      (fun i => get_bin_bounds_string i
        (arangeNonzero (now - min_date + step) step)
        (fun b => (toString (pyTrunc (b / (sp : ℚ)))).data)
        (age_bin_type.data ++ " old".data))
      (tableBins (tableTally step 0 now usage_data))
      (by
        intro i hi
        obtain ⟨hi0, hilt⟩ := tableBins_mem _ hrows i hi
        have hlen : (arangeNonzero (now - min_date + step) step).length =
            (⌈(now - min_date) / step⌉ + 1).toNat := by
          rw [arange_length, hceil]
        have hi1 : i.toNat < (arangeNonzero (now - min_date + step) step).length := by
          rw [hlen]; omega
        have hi2 : (i + 1).toNat < (arangeNonzero (now - min_date + step) step).length := by
          rw [hlen]; omega
        obtain ⟨a, ha⟩ : ∃ a,
            (arangeNonzero (now - min_date + step) step).get? i.toNat = some a :=
          ⟨_, List.get?_eq_get hi1⟩
        obtain ⟨b, hb⟩ : ∃ b,
            (arangeNonzero (now - min_date + step) step).get? (i + 1).toNat = some b :=
          ⟨_, List.get?_eq_get hi2⟩
        show ∃ lbl, get_bin_bounds_string i (arangeNonzero (now - min_date + step) step)
          (fun b2 => (toString (pyTrunc (b2 / (sp : ℚ)))).data)
          (age_bin_type.data ++ " old".data) = some lbl
        rw [get_bin_bounds_string, pyGet, if_pos hi0, ha, pyGet,
          if_pos (show (0 : ℤ) ≤ i + 1 by omega), hb]
        exact ⟨_, rfl⟩)
    exact ⟨⟨tableTally step 0 now usage_data, labels⟩, by
      simp only [get_file_size_table, hsp]
      rw [if_neg (ne_of_gt hstep), hlabels]⟩

/-- C5 witness: the theorem applied to one 5-byte record of age 50 with
1-minute bins (50 is not a multiple of 60, so the table is produced). -/
theorem C5_bin_assignment_witness :
    ∃ t, get_file_size_table [(Sum.inr 7, [(5, 50, [])])] 50 1 "minutes" 0 100
      = some t :=
  (C5_bin_assignment [(Sum.inr 7, [(5, 50, [])])] 50 1 "minutes" 100 60 (by decide)
    (by norm_num)
    (by
      intro p hp fd hfd
      simp only [List.mem_singleton] at hp
      subst hp
      simp only [List.mem_singleton] at hfd
      subst hfd
      norm_num)
    (by
      rintro ⟨m, hm⟩
      push_cast at hm
      norm_num at hm
      have h2 : (m * 60 : ℤ) = 50 := by exact_mod_cast hm.symm
      omega)).2.2

/-- C5 counterexample: a single file whose mtime equals both `min_date` and
`now` (age 0, `now - min_date = 0`, an exact multiple of the bin width):
the boundary list `arange(0, 0 + 3600, 3600) = [0]` has no upper boundary
for the occupied bin 0, and labelling raises `IndexError`, so no table is
produced — the oldest file's bin lacks its upper boundary. -/
theorem C5_bin_assignment_cex :
    get_file_size_table [(Sum.inr 1, [(100, 3600, [])])] 3600 1 "hours" 0 3600
      = none := by
  have hsp : getAssoc time_spans "hours" = some 3600 := by decide
  simp only [get_file_size_table, hsp]
  rw [show ((1 : ℤ) : ℚ) * ((3600 : ℕ) : ℚ) = 3600 by push_cast; norm_num]
  rw [if_neg (by norm_num : ¬ ((3600 : ℚ) = 0))]
  have hc : tableTally 3600 0 3600 [(Sum.inr 1, [(100, 3600, [])])]
      = [(Sum.inr 1, [(0, 100)])] := by
    norm_num [tableTally, tallyOwner, tallyFiles, tallyFile, pyTrunc, bumpAssoc]
  rw [hc]
  have hb : tableBins [(Sum.inr 1, [(0, 100)])] = [0] := by decide
  rw [hb]
  have hbl : (arangeNonzero ((3600 : ℚ) - 3600 + 3600) 3600) = [0 * (3600 : ℚ)] := by
    rw [arangeNonzero,
      show ((3600 : ℚ) - 3600 + 3600) / 3600 = 1 by norm_num, Int.ceil_one]
    rfl
  rw [hbl]
  rfl

end DuHistogram

